import Mathlib

/-!
Verification of the lexical-graph builder, merger, snapshot I/O model and
breadth-first word-ladder search of `src/main.py`.

The embedding is a direct translation of the Python source:

* Python dicts (which preserve insertion order) become association lists
  `List (String × α)`; assignment to an existing key keeps its position
  (`updA`), assignment to a fresh key appends (`insA`).
* Python sets of strings become insertion-ordered duplicate-free lists:
  `set.add` is `setInsert`, `set.update` is `setUnion`.  All stated
  properties about set contents are membership properties, so the chosen
  iteration order carries no weight.
* `str.strip` / `str.lower` / `str.split` are modelled character-wise
  (`strStrip`, `strLower`, `splitOnChar`), matching Python on the ASCII
  data the program handles.
* XML extraction by `lxml` is external: `build_word_info` receives the
  already-extracted record list as `Option (List RawSynset)`, `none`
  standing for the `except` branch of the `etree.parse` call.
* `json.dump` / `json.load` are modelled by `json_dump` / `json_load`
  over a small JSON value type.
* The interactive loop of `play_game` is modelled one query at a time by
  `play_game_query`; printed messages become `QueryResult` constructors,
  and a raised `KeyError` becomes `QueryResult.crash`.
-/

/-- A JSON value, as produced by `json.dump` and read back by `json.load`
(only the fragment the snapshot format uses). -/
inductive Json where
  | str : String → Json
  | arr : List Json → Json
  | obj : List (String × Json) → Json

/-- The per-word, per-part-of-speech record built by `build_word_info`:
`{"synonyms": set(), "antonyms": set(), "definition": set()}` (src/main.py
lines 40-46).  Note the field is named `definition`, singular, in the code. -/
structure SynsetData where
  synonyms : List String
  antonyms : List String
  definition : List String
deriving DecidableEq

/-- `word_info[word] : part-of-speech → SynsetData`, insertion ordered. -/
abbrev WordData := List (String × SynsetData)

/-- The lexical graph `word_info : word → part-of-speech → SynsetData`. -/
abbrev Graph := List (String × WordData)

/-- One synset as extracted from the XML before any stripping:
`terms` from `./terms/term/text()`, `glosses` from
`./gloss[@desc='orig']/orig/text()`, `antonyms` from `.//ant/text()`. -/
structure RawSynset where
  terms : List String
  glosses : List String
  antonyms : List String
deriving DecidableEq

/-- Association-list lookup: Python `d[k]` / `k in d` (first match). -/
def lookupA {α : Type} : List (String × α) → String → Option α
  | [], _ => none
  | (k, v) :: rest, w => if k = w then some v else lookupA rest w

/-- Python `k in d`. -/
def hasKey {α : Type} (l : List (String × α)) (w : String) : Bool :=
  (lookupA l w).isSome

/-- The keys of an association list, in order. -/
def keysOf {α : Type} (l : List (String × α)) : List String :=
  l.map (fun e => e.1)

/-- Python `d[k] = v` for a key already present: the value is replaced in
place, the key keeps its position. -/
def updA {α : Type} (l : List (String × α)) (k : String) (v : α) : List (String × α) :=
  l.map (fun e => if e.1 = k then (k, v) else e)

/-- Python `s.add(x)` on a set modelled as a duplicate-free list. -/
def setInsert (s : List String) (x : String) : List String :=
  if x ∈ s then s else s ++ [x]

/-- Python `s.update(t)`: insert every element of `t` into `s`. -/
def setUnion (s t : List String) : List String :=
  t.foldl setInsert s

/-- Whitespace as recognised by `str.strip` (the ASCII part). -/
def charIsSpace (c : Char) : Bool :=
  c = ' ' || c = '\t' || c = '\n' || c = '\r'

/-- Python `str.strip()`. -/
def strStrip (s : String) : String :=
  ⟨((s.data.dropWhile charIsSpace).reverse.dropWhile charIsSpace).reverse⟩

/-- Python `str.lower()` on one character (the ASCII case). -/
def lowerChar (c : Char) : Char :=
  if 65 ≤ c.toNat ∧ c.toNat ≤ 90 then Char.ofNat (c.toNat + 32) else c

/-- Python `str.lower()`. -/
def strLower (s : String) : String :=
  ⟨s.data.map lowerChar⟩

/-- `input(...).strip().lower()` applied to a query word (src/main.py
lines 116 and 121). -/
def processWord (s : String) : String :=
  strLower (strStrip s)

/-- Python `str.split(sep)` with a one-character separator. -/
def splitOnChar (sep : Char) (l : List Char) : List (List Char) :=
  l.foldr
    (fun c acc =>
      match acc with
      | [] => if c = sep then [[], []] else [[c]]
      | seg :: rest => if c = sep then [] :: seg :: rest else (c :: seg) :: rest)
    [[]]

/-- `xml_file.split("/")[-1].split(".")[0]` (src/main.py line 13). -/
def part_of_speech_of (xml_file : String) : String :=
  ⟨(splitOnChar '.' ((splitOnChar '/' xml_file.data).getLastD [])).headD []⟩

/-- The empty record `{"synonyms": set(), "antonyms": set(), "definition": set()}`. -/
def emptyData : SynsetData := ⟨[], [], []⟩

/-- In-place mutation of `word_info[w][p]` by `f`; keys and their order are
untouched, entries other than `(w, p)` are untouched. -/
def modifyData (g : Graph) (w p : String) (f : SynsetData → SynsetData) : Graph :=
  g.map (fun e =>
    if e.1 = w then
      (e.1, e.2.map (fun pe => if pe.1 = p then (pe.1, f pe.2) else pe))
    else e)

/-- `terms = [term.strip() for term in terms if term.strip()]`
(src/main.py line 27). -/
def termsOf (r : RawSynset) : List String :=
  (r.terms.map strStrip).filter (fun t => t ≠ "")

/-- `antonyms = [ant.strip() for ant in antonyms if ant.strip()]`
(src/main.py line 35). -/
def antsOf (r : RawSynset) : List String :=
  (r.antonyms.map strStrip).filter (fun t => t ≠ "")

/-- `definition = definition_list[0].strip() if definition_list else ""`
(src/main.py line 31). -/
def defnOf (r : RawSynset) : String :=
  match r.glosses with
  | [] => ""
  | d :: _ => strStrip d

/-- The body of `for word in terms:` (src/main.py lines 38-53): create the
entry if the word is new, then add every other term to its synonym set,
every antonym to its antonym set, and the definition if non-empty. -/
def addTermStep (pos : String) (terms ants : List String) (defn : String)
    (g : Graph) (word : String) : Graph :=
  modifyData
    (modifyData
      (modifyData
        (if hasKey g word then g else g ++ [(word, [(pos, emptyData)])])
        word pos
        (fun d => ⟨terms.foldl (fun s o => if o = word then s else setInsert s o) d.synonyms,
                   d.antonyms, d.definition⟩))
      word pos
      (fun d => ⟨d.synonyms, ants.foldl setInsert d.antonyms, d.definition⟩))
    word pos
    (fun d => ⟨d.synonyms, d.antonyms,
               if defn ≠ "" then setInsert d.definition defn else d.definition⟩)

/-- Processing of one `<synset>` element by the loop body of
`build_word_info` (src/main.py lines 24-53). -/
def addSynset (pos : String) (g : Graph) (r : RawSynset) : Graph :=
  (termsOf r).foldl (addTermStep pos (termsOf r) (antsOf r) (defnOf r)) g

/-- `build_word_info xml_file` (src/main.py lines 6-55).  The `lxml` parse
is external, so the function receives its outcome: `none` is the `except`
branch, which returns the empty dictionary `{}`. -/
def build_word_info (xml_file : String) (parsed : Option (List RawSynset)) : Graph :=
  match parsed with
  | none => []
  | some synsets => synsets.foldl (addSynset (part_of_speech_of xml_file)) []

/-- The message printed by the `except` branch of `build_word_info`
(src/main.py line 18); the successful branch prints nothing. -/
def build_logs (xml_file : String) (parsed : Option (List RawSynset)) : List String :=
  match parsed with
  | none => ["Error parsing XML file " ++ xml_file]
  | some _ => []

/-- Insertion of one key of `dict2` into `dict1` by `combine_dicionaries`
(src/main.py lines 60-67): a key present in `dict1` has its values merged
by `comb`, a fresh key is inserted wholesale. -/
def insA {α : Type} (comb : α → α → α) (l : List (String × α)) (k : String) (v : α) :
    List (String × α) :=
  match lookupA l k with
  | some v0 => updA l k (comb v0 v)
  | none => l ++ [(k, v)]

/-- The `for key, value in dict2.items()` loop of `combine_dicionaries`,
one association level at a time. -/
def mergeA {α : Type} (comb : α → α → α) (l1 : List (String × α)) :
    List (String × α) → List (String × α)
  | [] => l1
  | e :: rest => mergeA comb (insA comb l1 e.1 e.2) rest

/-- `combine_dicionaries` at the innermost level: the values are sets, so
`dict1[key].update(value)` unions the three fields element-wise. -/
def combineData (d1 d2 : SynsetData) : SynsetData :=
  ⟨setUnion d1.synonyms d2.synonyms,
   setUnion d1.antonyms d2.antonyms,
   setUnion d1.definition d2.definition⟩

/-- `combine_dicionaries` at the part-of-speech level. -/
def combineWordData (w1 w2 : WordData) : WordData :=
  mergeA combineData w1 w2

/-- `combine_dicionaries dict1 dict2` (src/main.py lines 58-68) on the
lexical-graph shape: the untyped recursive merge specialised to its three
levels (word, part of speech, field sets). -/
def combine_dicionaries (g1 g2 : Graph) : Graph :=
  mergeA combineWordData g1 g2

/-- The build-and-merge loop of `make_word_info_json` (src/main.py lines
97-100): each source file is parsed and merged into the accumulator. -/
def make_word_info (files : List (String × Option (List RawSynset))) : Graph :=
  files.foldl (fun acc f => combine_dicionaries acc (build_word_info f.1 f.2)) []

/-- `convert_sets_to_lists` (src/main.py lines 71-77): every set becomes a
list; on the model (where sets are already lists) the contents are kept
unchanged. -/
def convert_sets_to_lists (g : Graph) : Graph :=
  g.map (fun e => (e.1, e.2.map (fun pe => (pe.1, pe.2))))

/-- The JSON value `json.dump` writes for one field record: keys in the
insertion order of src/main.py lines 40-46. -/
def dataToJson (d : SynsetData) : Json :=
  Json.obj [("synonyms", Json.arr (d.synonyms.map Json.str)),
            ("antonyms", Json.arr (d.antonyms.map Json.str)),
            ("definition", Json.arr (d.definition.map Json.str))]

/-- The JSON snapshot of a lexical graph: keyed by word, then part of
speech, then field name. -/
def json_dump (g : Graph) : Json :=
  Json.obj (g.map (fun e =>
    (e.1, Json.obj (e.2.map (fun pe => (pe.1, dataToJson pe.2))))))

/-- `make_word_info_json xml_files` (src/main.py lines 95-102), up to the
file write: the JSON snapshot of the merged graph. -/
def make_word_info_json (files : List (String × Option (List RawSynset))) : Json :=
  json_dump (convert_sets_to_lists (make_word_info files))

/-- Read back a list of JSON strings. -/
def strList : List Json → Option (List String)
  | [] => some []
  | Json.str s :: rest => (strList rest).map (fun l => s :: l)
  | _ => none

/-- Traverse a list with a fallible reader. -/
def optMap {α β : Type} (f : α → Option β) : List α → Option (List β)
  | [] => some []
  | a :: rest => (f a).bind (fun b => (optMap f rest).map (fun l => b :: l))

/-- `json.load` at the field level. -/
def json_load_data : Json → Option SynsetData
  | Json.obj fs =>
    match lookupA fs "synonyms", lookupA fs "antonyms", lookupA fs "definition" with
    | some (Json.arr s), some (Json.arr a), some (Json.arr d) =>
      (strList s).bind (fun ss =>
        (strList a).bind (fun aa =>
          (strList d).map (fun dd => ⟨ss, aa, dd⟩)))
    | _, _, _ => none
  | _ => none

/-- `json.load` at the part-of-speech level. -/
def json_load_word : Json → Option WordData
  | Json.obj ps => optMap (fun pe => (json_load_data pe.2).map (fun d => (pe.1, d))) ps
  | _ => none

/-- `json.load` of a snapshot (src/main.py line 170). -/
def json_load : Json → Option Graph
  | Json.obj ws => optMap (fun we => (json_load_word we.2).map (fun wd => (we.1, wd))) ws
  | _ => none

/-- The neighbour list the BFS derives on demand (src/main.py lines
137-138): all synonyms of `a`, every part of speech, in iteration order; an
absent word has no neighbours. -/
def nbrs (g : Graph) (a : String) : List String :=
  match lookupA g a with
  | none => []
  | some wd => wd.flatMap (fun pe => pe.2.synonyms)

/-- The synonym-edge predicate: `b` appears in the synonym set of `a` under
some part of speech. -/
def edge (g : Graph) (a b : String) : Prop :=
  b ∈ nbrs g a

instance (g : Graph) (a b : String) : Decidable (edge g a b) := by
  unfold edge; infer_instance

/-- `e` is reachable from `s` in exactly `n` synonym hops. -/
inductive ReachIn (g : Graph) (s : String) : Nat → String → Prop where
  | zero : ReachIn g s 0 s
  | succ {n : Nat} {u w : String} : ReachIn g s n u → edge g u w → ReachIn g s (n + 1) w

/-- `e` is reachable from `s` through the synonym relation. -/
def Reaches (g : Graph) (s e : String) : Prop :=
  ∃ n, ReachIn g s n e

/-- `p` is a chain of synonym hops from `s` to `e`. -/
def Connects (g : Graph) (s e : String) (p : List String) : Prop :=
  p.head? = some s ∧ p.getLast? = some e ∧ List.Chain' (edge g) p

/-- Outcome of the raw BFS loop: the final `visited` map, a `KeyError` on
`word_info[current_word]`, or exhaustion of the fuel bound (never reached,
see `bfs_no_fuelOut`). -/
inductive SearchRes where
  | ok : List (String × Option String) → SearchRes
  | keyError : SearchRes
  | fuelOut : SearchRes
deriving DecidableEq

/-- The `while queue:` loop of `play_game` (src/main.py lines 133-141):
pop the head, stop on the end word, otherwise enqueue every unvisited
synonym with its predecessor. -/
def bfsLoop (g : Graph) (endW : String) :
    Nat → List (String × Option String) → List String → SearchRes
  | 0, _, _ => .fuelOut
  | _ + 1, visited, [] => .ok visited
  | fuel + 1, visited, cur :: rest =>
    if cur = endW then .ok visited
    else
      match lookupA g cur with
      | none => .keyError
      | some wd =>
        match (wd.flatMap (fun pe => pe.2.synonyms)).foldl
          (fun st syn =>
            if hasKey st.1 syn then st
            else (st.1 ++ [(syn, some cur)], st.2 ++ [syn]))
          (visited, rest) with
        | (visited', queue') => bfsLoop g endW fuel visited' queue'

/-- Fuel that `bfs_no_fuelOut` proves sufficient for `bfsLoop`. -/
def bfsFuel (g : Graph) : Nat :=
  2 + (g.flatMap (fun e => e.2.flatMap (fun pe => pe.2.synonyms))).length

/-- The search of src/main.py lines 131-141, from `visited = {start: None}`
and `queue = [start]`. -/
def bfs_search (g : Graph) (s e : String) : SearchRes :=
  bfsLoop g e (bfsFuel g) [(s, none)] [s]

/-- The path reconstruction of src/main.py lines 150-154: walk predecessor
links from the end word and prepend; a missing or `None` predecessor before
reaching `start` is the crash/diverging case, never reached on a map built
by the search. -/
def rebuild (visited : List (String × Option String)) (startW : String) :
    Nat → String → List String → Option (List String)
  | 0, _, _ => none
  | fuel + 1, cur, path =>
    if cur = startW then some path
    else
      match lookupA visited cur with
      | some (some pred) => rebuild visited startW fuel pred (pred :: path)
      | _ => none

/-- Outcome of one query of `play_game`, one constructor per printed
message; `crash` stands for an uncaught exception. -/
inductive QueryResult where
  | wordUnknown : String → QueryResult
  | sameWords : QueryResult
  | noPathFound : QueryResult
  | path : List String → QueryResult
  | crash : QueryResult
deriving DecidableEq

/-- Search plus reconstruction (src/main.py lines 130-156), after the
input checks have passed. -/
def path_result (g : Graph) (s e : String) : QueryResult :=
  match bfs_search g s e with
  | .keyError => .crash
  | .fuelOut => .crash
  | .ok visited =>
    if hasKey visited e then
      match rebuild visited s visited.length e [e] with
      | some p => .path p
      | none => .crash
    else .noPathFound

/-- One iteration of the `play_game` loop (src/main.py lines 115-157):
strip and lowercase both words, reject an unknown word, reject equal
words, then search. -/
def play_game_query (g : Graph) (rawStart rawEnd : String) : QueryResult :=
  let s := processWord rawStart
  if ¬ hasKey g s then .wordUnknown s
  else
    let e := processWord rawEnd
    if ¬ hasKey g e then .wordUnknown e
    else if s = e then .sameWords
    else path_result g s e

/-- Well-formedness a Python nested dict has by construction: the word keys
are distinct and so are the part-of-speech keys of every entry. -/
def WFB (g : Graph) : Bool :=
  (keysOf g).Nodup && g.all (fun e => (keysOf e.2).Nodup)

/-- No word is a member of its own synonym set, any part of speech. -/
def SelfExclB (g : Graph) : Bool :=
  g.all (fun e => e.2.all (fun pe => ¬ e.1 ∈ pe.2.synonyms))

/-- Every synonym that appears anywhere in the graph is itself a key. -/
def ClosedB (g : Graph) : Bool :=
  g.all (fun e => e.2.all (fun pe => pe.2.synonyms.all (fun x => hasKey g x)))

/-- How `combine_dicionaries` merges one level of optional values. -/
def combOpt {α : Type} (comb : α → α → α) : Option α → Option α → Option α
  | some a, some b => some (comb a b)
  | some a, none => some a
  | none, ob => ob

/-- All words in the graph are non-empty strings. -/
def KeysNE (g : Graph) : Prop := ∀ e ∈ g, e.1 ≠ ""

/-- Every synonym occurrence anywhere in the graph, with repetitions. -/
def allSynsList (g : Graph) : List String :=
  g.flatMap (fun e => e.2.flatMap (fun pe => pe.2.synonyms))

/-- `true` iff `j` is an array of strings. -/
def strArrB : Json → Bool
  | Json.arr l => l.all (fun j => match j with | Json.str _ => true | _ => false)
  | _ => false

/-- `true` iff `j` is an object with exactly the given field keys, in order,
each an array of strings. -/
def dataShapeB (fields : List String) : Json → Bool
  | Json.obj entries =>
    (keysOf entries == fields) && entries.all (fun fe => strArrB fe.2)
  | _ => false

/-- `true` iff the snapshot is keyed by word, then category, then exactly
the given field names, each field an array of strings. -/
def snapshotShapeB (fields : List String) : Json → Bool
  | Json.obj ws =>
    ws.all (fun we => match we.2 with
      | Json.obj ps => ps.all (fun pe => dataShapeB fields pe.2)
      | _ => false)
  | _ => false

/-- The top-level (word) keys of a serialized snapshot. -/
def jsonWords : Json → List String
  | Json.obj ws => keysOf ws
  | _ => []

/-! ### Instrumented search (proof device)

`bfsD` is `bfsLoop` with one ghost field added to every visited entry and
queue cell: the BFS depth at which the word was discovered.  Erasing the
depths gives back `bfsLoop` exactly (`bfsLoop_eq_bfsD`); all invariants are
proved on `bfsD` and transported. -/

/-- Visited map with ghost depths: word, predecessor, discovery depth. -/
abbrev VisD := List (String × (Option String × Nat))

/-- Frontier with ghost depths. -/
abbrev QD := List (String × Nat)

/-- Erase the ghost depth of every visited entry. -/
def stripV (V : VisD) : List (String × Option String) :=
  V.map (fun e => (e.1, e.2.1))

/-- Erase the ghost depth of every queue cell. -/
def stripQ (Q : QD) : List String :=
  Q.map (fun e => e.1)

/-- Result of the instrumented search. -/
inductive SearchResD where
  | ok : VisD → SearchResD
  | crash : SearchResD
  | fuelOut : SearchResD

/-- Erase the ghost depths of an instrumented result. -/
def stripRes : SearchResD → SearchRes
  | SearchResD.ok V => SearchRes.ok (stripV V)
  | SearchResD.crash => SearchRes.keyError
  | SearchResD.fuelOut => SearchRes.fuelOut

/-- One enqueue attempt of the instrumented search. -/
def enqStepD (cur : String) (d : Nat) (st : VisD × QD) (syn : String) : VisD × QD :=
  if hasKey st.1 syn then st
  else (st.1 ++ [(syn, (some cur, d + 1))], st.2 ++ [(syn, d + 1)])

/-- The instrumented BFS loop. -/
def bfsD (g : Graph) (endW : String) : Nat → VisD → QD → SearchResD
  | 0, _, _ => SearchResD.fuelOut
  | _ + 1, V, [] => SearchResD.ok V
  | fuel + 1, V, (c, dc) :: rest =>
    if c = endW then SearchResD.ok V
    else
      match lookupA g c with
      | none => SearchResD.crash
      | some wd =>
        match (wd.flatMap (fun pe => pe.2.synonyms)).foldl (enqStepD c dc) (V, rest) with
        | (V', Q') => bfsD g endW fuel V' Q'

/-- The visited maps the search can build: the seed `{start: None}` at
depth `0`, then repeated discovery of an unvisited neighbour `w` of an
already-visited word `pc`, one depth further. -/
inductive VisOK (g : Graph) (s : String) : VisD → Prop where
  | init : VisOK g s [(s, (none, 0))]
  | snoc {V : VisD} {w pc : String} {pr : Option String} {d : Nat} :
      VisOK g s V → (pc, (pr, d)) ∈ V → edge g pc w → hasKey V w = false →
      VisOK g s (V ++ [(w, (some pc, d + 1))])

/-- The loop invariant of the instrumented search. -/
structure BfsInv (g : Graph) (s : String) (V : VisD) (Q : QD) : Prop where
  visOK : VisOK g s V
  qlink : ∀ b ∈ Q, ∃ pr, (b.1, (pr, b.2)) ∈ V
  qmono : Q.Pairwise (fun a b => a.2 ≤ b.2)
  qspread : ∀ a ∈ Q, ∀ b ∈ Q, b.2 ≤ a.2 + 1
  qnodup : (stripQ Q).Nodup
  expanded : ∀ e ∈ V, e.1 ∉ stripQ Q → ∀ u, edge g e.1 u →
    ∃ pr d, (u, (pr, d)) ∈ V ∧ d ≤ e.2.2 + 1
  vleq : ∀ e ∈ V, ∀ b ∈ Q, e.2.2 ≤ b.2 + 1
  depthMin : ∀ e ∈ V, ∀ k, ReachIn g s k e.1 → e.2.2 ≤ k

/-- `word_info[w][p]`, when both keys are present. -/
def lookup2 (g : Graph) (w p : String) : Option SynsetData :=
  (lookupA g w).bind (fun wd => lookupA wd p)

/-- Order-insensitive content equality of two graphs: the same words, the
same parts of speech per word, and the same membership in each of the three
field sets. -/
def GraphEquiv (g h : Graph) : Prop :=
  (∀ w, hasKey g w = hasKey h w) ∧
  (∀ w p, (lookup2 g w p).isSome = (lookup2 h w p).isSome) ∧
  (∀ w p x,
    (∃ d, lookup2 g w p = some d ∧ x ∈ d.synonyms) ↔
    (∃ d, lookup2 h w p = some d ∧ x ∈ d.synonyms)) ∧
  (∀ w p x,
    (∃ d, lookup2 g w p = some d ∧ x ∈ d.antonyms) ↔
    (∃ d, lookup2 h w p = some d ∧ x ∈ d.antonyms)) ∧
  (∀ w p x,
    (∃ d, lookup2 g w p = some d ∧ x ∈ d.definition) ↔
    (∃ d, lookup2 h w p = some d ∧ x ∈ d.definition))

/-! ### Concrete inputs

Small parsed sources used to exercise the pipeline on closed terms: the
adjective scenario of the spec (`hot -> warm -> cool`), a disconnected
two-component source, a source whose synsets mention a capitalised
spelling, and two small single-file graphs. -/

/-- Parsed adjective source with synsets `{hot, warm}` and
`{warm, mild, cool}`. -/
def demoFiles : List (String × Option (List RawSynset)) :=
  [("resources/thesaurus/adj.xml",
    some [⟨["hot", "warm"], [], []⟩, ⟨["warm", "mild", "cool"], [], []⟩])]

/-- Parsed noun source with two disconnected components `{a, b}` and
`{c, d}`. -/
def discFiles : List (String × Option (List RawSynset)) :=
  [("resources/thesaurus/noun.xml",
    some [⟨["a", "b"], [], []⟩, ⟨["c", "d"], [], []⟩])]

/-- Parsed source whose synsets contain a capitalised and a lower-case
spelling of the same word. -/
def upperFiles : List (String × Option (List RawSynset)) :=
  [("resources/thesaurus/adj.xml",
    some [⟨["Hot", "Scorching"], [], []⟩, ⟨["hot", "warm"], [], []⟩])]

/-- Partial graph built from one adjective synset. -/
def demoA : Graph :=
  build_word_info "resources/thesaurus/adj.xml" (some [⟨["hot", "warm"], [], []⟩])

/-- Partial graph built from one noun synset with an antonym and a gloss. -/
def demoB : Graph :=
  build_word_info "resources/thesaurus/noun.xml"
    (some [⟨["warm", "mild", "cool"], ["hot"], ["at a fairly high temperature"]⟩])

/-! ### Association-list lemmas -/

theorem lookupA_isSome_iff {α : Type} (l : List (String × α)) (w : String) :
    (lookupA l w).isSome = true ↔ w ∈ keysOf l := by
  induction l with
  | nil => simp [lookupA, keysOf]
  | cons e rest ih =>
    by_cases h : e.1 = w
    · simp [lookupA, keysOf, h]
    · simp [lookupA, keysOf, h, ih, Ne.symm h]

theorem hasKey_iff {α : Type} (l : List (String × α)) (w : String) :
    hasKey l w = true ↔ w ∈ keysOf l := by
  simp [hasKey, lookupA_isSome_iff]

theorem lookupA_eq_none_iff {α : Type} (l : List (String × α)) (w : String) :
    lookupA l w = none ↔ w ∉ keysOf l := by
  constructor
  · intro h hmem
    rw [← hasKey_iff] at hmem
    simp [hasKey, h] at hmem
  · intro h
    rcases hl : lookupA l w with _ | v
    · rfl
    · exact absurd ((hasKey_iff l w).mp (by simp [hasKey, hl])) h

theorem lookupA_mem {α : Type} {l : List (String × α)} {w : String} {v : α}
    (h : lookupA l w = some v) : (w, v) ∈ l := by
  induction l with
  | nil => simp [lookupA] at h
  | cons e rest ih =>
    obtain ⟨k, u⟩ := e
    by_cases he : k = w
    · subst he
      simp [lookupA] at h
      subst h
      exact List.mem_cons_self _ _
    · simp [lookupA, he] at h
      exact List.mem_cons_of_mem _ (ih h)

theorem lookupA_append {α : Type} (l1 l2 : List (String × α)) (w : String) :
    lookupA (l1 ++ l2) w =
      match lookupA l1 w with
      | some v => some v
      | none => lookupA l2 w := by
  induction l1 with
  | nil => simp [lookupA]
  | cons e rest ih =>
    by_cases he : e.1 = w <;> simp [lookupA, he, ih]

theorem lookupA_map_val {α β : Type} (l : List (String × α)) (f : α → β) (w : String) :
    lookupA (l.map (fun e => (e.1, f e.2))) w = (lookupA l w).map f := by
  induction l with
  | nil => simp [lookupA]
  | cons e rest ih =>
    by_cases he : e.1 = w <;> simp [lookupA, he, ih]

theorem keysOf_append {α : Type} (l1 l2 : List (String × α)) :
    keysOf (l1 ++ l2) = keysOf l1 ++ keysOf l2 := by
  simp [keysOf]

theorem updA_cons {α : Type} (k0 : String) (u : α) (rest : List (String × α))
    (k : String) (v : α) :
    updA ((k0, u) :: rest) k v =
      (if k0 = k then (k, v) else (k0, u)) :: updA rest k v := by
  unfold updA
  simp

theorem keysOf_updA {α : Type} (l : List (String × α)) (k : String) (v : α) :
    keysOf (updA l k v) = keysOf l := by
  unfold updA keysOf
  rw [List.map_map]
  apply List.map_congr_left
  intro e _
  by_cases he : e.1 = k <;> simp [he]

theorem lookupA_updA_self {α : Type} {l : List (String × α)} {k : String} (v : α)
    (h : hasKey l k = true) : lookupA (updA l k v) k = some v := by
  induction l with
  | nil => simp [hasKey, lookupA] at h
  | cons e rest ih =>
    obtain ⟨k0, u⟩ := e
    rw [updA_cons]
    by_cases he : k0 = k
    · rw [if_pos he]
      simp [lookupA]
    · rw [if_neg he]
      have h' : hasKey rest k = true := by
        simp [hasKey, lookupA, he] at h
        simpa [hasKey] using h
      simp [lookupA, he, ih h']

theorem lookupA_updA_ne {α : Type} (l : List (String × α)) {k w : String} (v : α)
    (h : w ≠ k) : lookupA (updA l k v) w = lookupA l w := by
  induction l with
  | nil => rfl
  | cons e rest ih =>
    obtain ⟨k0, u⟩ := e
    rw [updA_cons]
    by_cases he : k0 = k
    · rw [if_pos he]
      have hkw : ¬ (k = w) := fun hk => h hk.symm
      have h2 : ¬ (k0 = w) := by rw [he]; exact hkw
      simp [lookupA, hkw, h2, ih]
    · rw [if_neg he]
      by_cases hw : k0 = w <;> simp [lookupA, hw, ih]

theorem lookupA_of_mem_nodup {α : Type} {l : List (String × α)} {w : String} {v : α}
    (hmem : (w, v) ∈ l) (hnd : (keysOf l).Nodup) : lookupA l w = some v := by
  induction l with
  | nil => simp at hmem
  | cons e rest ih =>
    obtain ⟨k0, u⟩ := e
    simp only [keysOf, List.map_cons, List.nodup_cons] at hnd
    rcases List.mem_cons.mp hmem with h | h
    · cases h
      simp [lookupA]
    · have hw : w ∈ keysOf rest := List.mem_map.mpr ⟨(w, v), h, rfl⟩
      have hne : ¬ (k0 = w) := fun he => hnd.1 (by rw [he]; exact hw)
      simp only [lookupA, if_neg hne]
      exact ih h hnd.2

/-! ### Set-model lemmas -/

theorem mem_setInsert (s : List String) (x y : String) :
    y ∈ setInsert s x ↔ y ∈ s ∨ y = x := by
  unfold setInsert
  by_cases h : x ∈ s
  · rw [if_pos h]
    constructor
    · exact Or.inl
    · rintro (hy | rfl)
      · exact hy
      · exact h
  · rw [if_neg h]
    simp

theorem mem_setUnion (s t : List String) (x : String) :
    x ∈ setUnion s t ↔ x ∈ s ∨ x ∈ t := by
  induction t generalizing s with
  | nil => simp [setUnion]
  | cons a rest ih =>
    simp only [setUnion, List.foldl_cons] at ih ⊢
    rw [ih (setInsert s a), mem_setInsert]
    simp [or_assoc]

/-! ### Merge characterization -/

theorem lookupA_insA {α : Type} (comb : α → α → α) (l : List (String × α))
    (k : String) (v : α) (w : String) :
    lookupA (insA comb l k v) w =
      if w = k then some (match lookupA l k with
        | some v0 => comb v0 v
        | none => v)
      else lookupA l w := by
  unfold insA
  rcases hk : lookupA l k with _ | v0
  · rw [lookupA_append]
    by_cases hw : w = k
    · subst hw
      rw [hk]
      simp [lookupA]
    · rw [if_neg hw]
      rcases hw2 : lookupA l w with _ | u
      · have hne : ¬ (k = w) := fun hh => hw hh.symm
        simp [lookupA, hne]
      · simp
  · by_cases hw : w = k
    · subst hw
      have hkey : hasKey l w = true := by simp [hasKey, hk]
      rw [lookupA_updA_self _ hkey, if_pos rfl]
    · rw [lookupA_updA_ne _ _ hw, if_neg hw]

theorem keysOf_insA_of_key {α : Type} (comb : α → α → α) {l : List (String × α)}
    {k : String} (v : α) (h : hasKey l k = true) :
    keysOf (insA comb l k v) = keysOf l := by
  unfold insA
  rcases hk : lookupA l k with _ | v0
  · simp [hasKey, hk] at h
  · simp [keysOf_updA]

theorem keysOf_insA_of_not_key {α : Type} (comb : α → α → α) {l : List (String × α)}
    {k : String} (v : α) (h : hasKey l k = false) :
    keysOf (insA comb l k v) = keysOf l ++ [k] := by
  unfold insA
  rcases hk : lookupA l k with _ | v0
  · simp [keysOf_append, keysOf]
  · simp [hasKey, hk] at h

theorem nodup_insA {α : Type} (comb : α → α → α) {l : List (String × α)}
    (k : String) (v : α) (h : (keysOf l).Nodup) :
    (keysOf (insA comb l k v)).Nodup := by
  rcases hk : hasKey l k with _ | _
  · rw [keysOf_insA_of_not_key comb v hk]
    have : k ∉ keysOf l := by
      intro hmem
      rw [← hasKey_iff] at hmem
      simp [hmem] at hk
    simp [List.nodup_append, h, this]
  · rw [keysOf_insA_of_key comb v hk]
    exact h

theorem nodup_mergeA {α : Type} (comb : α → α → α) (l2 : List (String × α)) :
    ∀ l1, (keysOf l1).Nodup → (keysOf (mergeA comb l1 l2)).Nodup := by
  induction l2 with
  | nil => intro l1 h; exact h
  | cons e rest ih =>
    intro l1 h
    exact ih _ (nodup_insA comb e.1 e.2 h)

theorem hasKey_mergeA {α : Type} (comb : α → α → α) (l2 : List (String × α)) :
    ∀ l1 w, hasKey (mergeA comb l1 l2) w = (hasKey l1 w || hasKey l2 w) := by
  induction l2 with
  | nil => intro l1 w; simp [mergeA, hasKey, lookupA]
  | cons e rest ih =>
    intro l1 w
    show hasKey (mergeA comb (insA comb l1 e.1 e.2) rest) w = _
    rw [ih]
    have : hasKey (insA comb l1 e.1 e.2) w = (hasKey l1 w || decide (w = e.1)) := by
      simp only [hasKey, lookupA_insA]
      by_cases hw : w = e.1
      · simp [hw]
      · simp [hw]
    rw [this]
    simp only [hasKey, lookupA]
    by_cases hw : e.1 = w
    · simp [hw]
    · have : w ≠ e.1 := fun h => hw h.symm
      simp [hw, this]

theorem lookupA_mergeA {α : Type} (comb : α → α → α) (l2 : List (String × α)) :
    ∀ l1 w, (keysOf l2).Nodup →
      lookupA (mergeA comb l1 l2) w = combOpt comb (lookupA l1 w) (lookupA l2 w) := by
  induction l2 with
  | nil =>
    intro l1 w _
    rcases h : lookupA l1 w with _ | v <;> simp [mergeA, lookupA, combOpt, h]
  | cons e rest ih =>
    intro l1 w hnd
    simp only [keysOf, List.map_cons, List.nodup_cons] at hnd
    show lookupA (mergeA comb (insA comb l1 e.1 e.2) rest) w = _
    rw [ih _ _ hnd.2, lookupA_insA]
    by_cases hw : w = e.1
    · have hrest : lookupA rest w = none := by
        rw [lookupA_eq_none_iff, hw]
        exact hnd.1
      have he1 : lookupA (e :: rest) w = some e.2 := by
        have h1 : e.1 = w := hw.symm
        simp [lookupA, h1]
      rw [if_pos hw, hrest, he1, hw]
      rcases h1 : lookupA l1 e.1 with _ | v0 <;> simp [combOpt]
    · have he1 : lookupA (e :: rest) w = lookupA rest w := by
        have h1 : ¬ (e.1 = w) := fun h => hw h.symm
        simp [lookupA, h1]
      rw [if_neg hw, he1]

/-- Every entry of a merge satisfies `P` when the inputs' entries do and
`P` is preserved key-wise by the combiner. -/
theorem insA_entries {α : Type} (P : String × α → Prop) {comb : α → α → α}
    (hcomb : ∀ k a b, P (k, a) → P (k, b) → P (k, comb a b))
    {l : List (String × α)} {k : String} {v : α}
    (hl : ∀ e ∈ l, P e) (hv : P (k, v)) :
    ∀ e ∈ insA comb l k v, P e := by
  intro e he
  unfold insA at he
  rcases hk : lookupA l k with _ | v0
  · rw [hk] at he
    rcases List.mem_append.mp he with h | h
    · exact hl e h
    · simp at h
      subst h
      exact hv
  · rw [hk] at he
    unfold updA at he
    rcases List.mem_map.mp he with ⟨e0, he0, heq⟩
    by_cases h0 : e0.1 = k
    · rw [if_pos h0] at heq
      subst heq
      have : (k, v0) ∈ l := lookupA_mem hk
      exact hcomb k v0 v (hl _ this) hv
    · rw [if_neg h0] at heq
      subst heq
      exact hl e0 he0

theorem mergeA_entries {α : Type} (P : String × α → Prop) {comb : α → α → α}
    (hcomb : ∀ k a b, P (k, a) → P (k, b) → P (k, comb a b))
    (l2 : List (String × α)) :
    ∀ l1, (∀ e ∈ l1, P e) → (∀ e ∈ l2, P e) → ∀ e ∈ mergeA comb l1 l2, P e := by
  induction l2 with
  | nil => intro l1 h1 _ e he; exact h1 e he
  | cons a rest ih =>
    intro l1 h1 h2 e he
    refine ih _ ?_ (fun x hx => h2 x (List.mem_cons_of_mem _ hx)) e he
    have ha : P (a.1, a.2) := h2 a (List.mem_cons_self a rest)
    exact insA_entries P hcomb h1 ha

/-! ### Graph-level merge lemmas -/

theorem hasKey_combine (g1 g2 : Graph) (w : String) :
    hasKey (combine_dicionaries g1 g2) w = (hasKey g1 w || hasKey g2 w) :=
  hasKey_mergeA combineWordData g2 g1 w

theorem WFB_iff (g : Graph) :
    WFB g = true ↔ (keysOf g).Nodup ∧ ∀ e ∈ g, (keysOf e.2).Nodup := by
  simp [WFB, List.all_eq_true]

theorem SelfExclB_iff (g : Graph) :
    SelfExclB g = true ↔ ∀ e ∈ g, ∀ pe ∈ e.2, e.1 ∉ pe.2.synonyms := by
  simp [SelfExclB, List.all_eq_true]

theorem ClosedB_iff (g : Graph) :
    ClosedB g = true ↔ ∀ e ∈ g, ∀ pe ∈ e.2, ∀ x ∈ pe.2.synonyms, hasKey g x = true := by
  simp [ClosedB, List.all_eq_true]

theorem WFB_combine {g1 g2 : Graph} (h1 : WFB g1 = true) (h2 : WFB g2 = true) :
    WFB (combine_dicionaries g1 g2) = true := by
  rw [WFB_iff] at h1 h2 ⊢
  constructor
  · exact nodup_mergeA combineWordData g2 g1 h1.1
  · intro e he
    refine mergeA_entries (fun en : String × WordData => (keysOf en.2).Nodup)
      ?_ g2 g1 h1.2 h2.2 e he
    intro k a b ha _
    exact nodup_mergeA combineData b a ha

theorem lookup2_combine {g1 g2 : Graph} (h2 : WFB g2 = true) (w p : String) :
    lookup2 (combine_dicionaries g1 g2) w p =
      combOpt combineData (lookup2 g1 w p) (lookup2 g2 w p) := by
  rw [WFB_iff] at h2
  unfold lookup2 combine_dicionaries
  rw [lookupA_mergeA combineWordData g2 g1 w h2.1]
  rcases hg1 : lookupA g1 w with _ | wd1 <;> rcases hg2 : lookupA g2 w with _ | wd2
  · simp [combOpt]
  · simp [combOpt]
  · rcases h : lookupA wd1 p with _ | d <;> simp [combOpt, h]
  · have hnd2 : (keysOf wd2).Nodup := h2.2 _ (lookupA_mem hg2)
    simp only [combOpt, Option.some_bind]
    exact lookupA_mergeA combineData wd2 wd1 p hnd2

theorem combOpt_field_mem (f : SynsetData → List String)
    (hf : ∀ a b, f (combineData a b) = setUnion (f a) (f b))
    (x : String) (o1 o2 : Option SynsetData) :
    (∃ d, combOpt combineData o1 o2 = some d ∧ x ∈ f d) ↔
    ((∃ d, o1 = some d ∧ x ∈ f d) ∨ (∃ d, o2 = some d ∧ x ∈ f d)) := by
  rcases o1 with _ | d1 <;> rcases o2 with _ | d2 <;>
    simp [combOpt, hf, mem_setUnion]

theorem field_mem_combine {g1 g2 : Graph} (h2 : WFB g2 = true)
    (f : SynsetData → List String)
    (hf : ∀ a b, f (combineData a b) = setUnion (f a) (f b)) (w p x : String) :
    (∃ d, lookup2 (combine_dicionaries g1 g2) w p = some d ∧ x ∈ f d) ↔
    ((∃ d, lookup2 g1 w p = some d ∧ x ∈ f d) ∨
     (∃ d, lookup2 g2 w p = some d ∧ x ∈ f d)) := by
  rw [lookup2_combine h2]
  exact combOpt_field_mem f hf x _ _

theorem lookup2_isSome_combine {g1 g2 : Graph} (h2 : WFB g2 = true) (w p : String) :
    (lookup2 (combine_dicionaries g1 g2) w p).isSome =
      ((lookup2 g1 w p).isSome || (lookup2 g2 w p).isSome) := by
  rw [lookup2_combine h2]
  rcases lookup2 g1 w p with _ | d1 <;> rcases lookup2 g2 w p with _ | d2 <;>
    simp [combOpt]

theorem SelfExclB_combine {g1 g2 : Graph}
    (h1 : SelfExclB g1 = true) (h2 : SelfExclB g2 = true) :
    SelfExclB (combine_dicionaries g1 g2) = true := by
  rw [SelfExclB_iff] at h1 h2 ⊢
  intro e he
  refine mergeA_entries (fun en : String × WordData => ∀ pe ∈ en.2, en.1 ∉ pe.2.synonyms)
    ?_ g2 g1 h1 h2 e he
  intro k a b ha hb pe hpe
  refine mergeA_entries (fun pn : String × SynsetData => k ∉ pn.2.synonyms)
    ?_ b a ha hb pe hpe
  intro p d1 d2 hd1 hd2 hmem
  rcases (mem_setUnion _ _ _).mp hmem with h | h
  · exact hd1 h
  · exact hd2 h

theorem ClosedB_combine {g1 g2 : Graph}
    (h1 : ClosedB g1 = true) (h2 : ClosedB g2 = true) :
    ClosedB (combine_dicionaries g1 g2) = true := by
  rw [ClosedB_iff] at h1 h2 ⊢
  have main : ∀ e ∈ mergeA combineWordData g1 g2,
      ∀ pe ∈ e.2, ∀ x ∈ pe.2.synonyms, hasKey g1 x = true ∨ hasKey g2 x = true := by
    refine mergeA_entries
      (fun en : String × WordData =>
        ∀ pe ∈ en.2, ∀ x ∈ pe.2.synonyms, hasKey g1 x = true ∨ hasKey g2 x = true)
      ?_ g2 g1 ?_ ?_
    · intro k a b ha hb pe hpe
      refine mergeA_entries
        (fun pn : String × SynsetData =>
          ∀ x ∈ pn.2.synonyms, hasKey g1 x = true ∨ hasKey g2 x = true)
        ?_ b a ha hb pe hpe
      intro p d1 d2 hd1 hd2 x hx
      rcases (mem_setUnion _ _ _).mp hx with h | h
      · exact hd1 x h
      · exact hd2 x h
    · intro e he pe hpe x hx
      exact Or.inl (h1 e he pe hpe x hx)
    · intro e he pe hpe x hx
      exact Or.inr (h2 e he pe hpe x hx)
  intro e he pe hpe x hx
  rw [hasKey_combine]
  rcases main e he pe hpe x hx with h | h <;> simp [h]

/-! ### Builder lemmas -/

theorem bool_eq_of_iff {a b : Bool} (h : a = true ↔ b = true) : a = b := by
  cases a <;> cases b <;> simp_all

theorem mem_allSynsList (g : Graph) (x : String) :
    x ∈ allSynsList g ↔ ∃ e ∈ g, ∃ pe ∈ e.2, x ∈ pe.2.synonyms := by
  simp [allSynsList]

theorem ClosedB_iff_allSyns (g : Graph) :
    ClosedB g = true ↔ ∀ x ∈ allSynsList g, hasKey g x = true := by
  rw [ClosedB_iff]
  constructor
  · intro h x hx
    obtain ⟨e, he, pe, hpe, hxs⟩ := (mem_allSynsList g x).mp hx
    exact h e he pe hpe x hxs
  · intro h e he pe hpe x hx
    exact h x ((mem_allSynsList g x).mpr ⟨e, he, pe, hpe, hx⟩)

theorem keysOf_modifyData (g : Graph) (w p : String) (f : SynsetData → SynsetData) :
    keysOf (modifyData g w p f) = keysOf g := by
  unfold modifyData keysOf
  rw [List.map_map]
  apply List.map_congr_left
  intro e _
  by_cases hw : e.1 = w <;> simp [hw]

theorem hasKey_modifyData (g : Graph) (w p : String) (f : SynsetData → SynsetData)
    (x : String) : hasKey (modifyData g w p f) x = hasKey g x := by
  apply bool_eq_of_iff
  rw [hasKey_iff, hasKey_iff, keysOf_modifyData]

theorem hasKey_append {α : Type} (l1 l2 : List (String × α)) (x : String) :
    hasKey (l1 ++ l2) x = (hasKey l1 x || hasKey l2 x) := by
  unfold hasKey
  rw [lookupA_append]
  rcases h : lookupA l1 x with _ | v <;> simp

theorem mem_modifyData_elim {g : Graph} {w p : String} {f : SynsetData → SynsetData}
    {e' : String × WordData} (h : e' ∈ modifyData g w p f) :
    (∃ e ∈ g, e.1 ≠ w ∧ e' = e) ∨
    (∃ e ∈ g, e.1 = w ∧
      e' = (e.1, e.2.map (fun pe => if pe.1 = p then (pe.1, f pe.2) else pe))) := by
  obtain ⟨e, he, heq⟩ := List.mem_map.mp h
  by_cases hw : e.1 = w
  · right
    refine ⟨e, he, hw, ?_⟩
    rw [← heq, if_pos hw]
  · left
    refine ⟨e, he, hw, ?_⟩
    rw [← heq, if_neg hw]

theorem mem_posMap_elim {wd : WordData} {p : String} {f : SynsetData → SynsetData}
    {pe' : String × SynsetData}
    (h : pe' ∈ wd.map (fun pe => if pe.1 = p then (pe.1, f pe.2) else pe)) :
    (∃ pe ∈ wd, pe.1 ≠ p ∧ pe' = pe) ∨
    (∃ pe ∈ wd, pe.1 = p ∧ pe' = (pe.1, f pe.2)) := by
  obtain ⟨pe, hpe, heq⟩ := List.mem_map.mp h
  by_cases hp : pe.1 = p
  · right
    refine ⟨pe, hpe, hp, ?_⟩
    rw [← heq, if_pos hp]
  · left
    refine ⟨pe, hpe, hp, ?_⟩
    rw [← heq, if_neg hp]

theorem mem_synFold (terms : List String) (word : String) (s : List String) (x : String) :
    x ∈ terms.foldl (fun s o => if o = word then s else setInsert s o) s ↔
      x ∈ s ∨ (x ∈ terms ∧ x ≠ word) := by
  induction terms generalizing s with
  | nil => simp
  | cons a rest ih =>
    simp only [List.foldl_cons]
    by_cases ha : a = word
    · rw [if_pos ha, ih]
      subst ha
      constructor
      · rintro (h | h)
        · exact Or.inl h
        · exact Or.inr ⟨List.mem_cons_of_mem _ h.1, h.2⟩
      · rintro (h | ⟨hmem, hne⟩)
        · exact Or.inl h
        · rcases List.mem_cons.mp hmem with rfl | hmem2
          · exact absurd rfl hne
          · exact Or.inr ⟨hmem2, hne⟩
    · rw [if_neg ha, ih]
      constructor
      · rintro (h | h)
        · rcases (mem_setInsert s a x).mp h with h2 | rfl
          · exact Or.inl h2
          · exact Or.inr ⟨List.mem_cons_self _ _, ha⟩
        · exact Or.inr ⟨List.mem_cons_of_mem _ h.1, h.2⟩
      · rintro (h | ⟨hmem, hne⟩)
        · exact Or.inl ((mem_setInsert s a x).mpr (Or.inl h))
        · rcases List.mem_cons.mp hmem with rfl | hmem2
          · exact Or.inl ((mem_setInsert s x x).mpr (Or.inr rfl))
          · exact Or.inr ⟨hmem2, hne⟩

theorem foldl_inv {σ β : Type} (P : σ → Prop) (step : σ → β → σ) (l : List β) :
    ∀ s, P s → (∀ s b, b ∈ l → P s → P (step s b)) → P (l.foldl step s) := by
  induction l with
  | nil => intro s h _; exact h
  | cons a rest ih =>
    intro s h hstep
    exact ih _ (hstep s a (List.mem_cons_self a rest) h)
      (fun s' b hb => hstep s' b (List.mem_cons_of_mem _ hb))

theorem mem_termsOf_ne {r : RawSynset} {t : String} (h : t ∈ termsOf r) : t ≠ "" := by
  unfold termsOf at h
  have := (List.mem_filter.mp h).2
  simpa using this

theorem hasKey_addTermStep_mono {pos : String} {terms ants : List String} {defn : String}
    {g : Graph} {word x : String} (h : hasKey g x = true) :
    hasKey (addTermStep pos terms ants defn g word) x = true := by
  unfold addTermStep
  simp only [hasKey_modifyData]
  by_cases hk : hasKey g word = true
  · rw [if_pos hk]; exact h
  · rw [if_neg hk, hasKey_append, h]
    rfl

theorem hasKey_addTermStep_self {pos : String} {terms ants : List String} {defn : String}
    {g : Graph} {word : String} :
    hasKey (addTermStep pos terms ants defn g word) word = true := by
  unfold addTermStep
  simp only [hasKey_modifyData]
  by_cases hk : hasKey g word = true
  · rw [if_pos hk]; exact hk
  · rw [if_neg hk, hasKey_append]
    have h2 : hasKey [(word, [(pos, emptyData)])] word = true := by
      simp [hasKey, lookupA]
    rw [h2]
    simp

theorem hasKey_addTermStep_elim {pos : String} {terms ants : List String} {defn : String}
    {g : Graph} {word x : String}
    (h : hasKey (addTermStep pos terms ants defn g word) x = true) :
    hasKey g x = true ∨ x = word := by
  unfold addTermStep at h
  simp only [hasKey_modifyData] at h
  by_cases hk : hasKey g word = true
  · rw [if_pos hk] at h; exact Or.inl h
  · rw [if_neg hk, hasKey_append] at h
    rcases Bool.or_eq_true_iff.mp h with h2 | h2
    · exact Or.inl h2
    · simp [hasKey, lookupA] at h2
      by_cases hx : word = x
      · exact Or.inr hx.symm
      · simp [hx] at h2

theorem hasKey_foldSteps_term (pos : String) (terms ants : List String) (defn : String) :
    ∀ (l : List String) (g : Graph), ∀ t ∈ l,
      hasKey (l.foldl (addTermStep pos terms ants defn) g) t = true := by
  intro l
  induction l with
  | nil => intro g t ht; simp at ht
  | cons a rest ih =>
    intro g t ht
    rcases List.mem_cons.mp ht with rfl | ht2
    · simp only [List.foldl_cons]
      exact foldl_inv (fun g' => hasKey g' t = true) _ _ _ hasKey_addTermStep_self
        (fun g' b _ hb => hasKey_addTermStep_mono hb)
    · simp only [List.foldl_cons]
      exact ih _ t ht2

theorem hasKey_addSynset_mono {pos : String} {g : Graph} {r : RawSynset} {x : String}
    (h : hasKey g x = true) : hasKey (addSynset pos g r) x = true := by
  unfold addSynset
  exact foldl_inv (fun g' => hasKey g' x = true) _ _ g h
    (fun g' b _ hb => hasKey_addTermStep_mono hb)

theorem hasKey_addSynset_term {pos : String} {g : Graph} {r : RawSynset} :
    ∀ t ∈ termsOf r, hasKey (addSynset pos g r) t = true := by
  intro t ht
  unfold addSynset
  exact hasKey_foldSteps_term pos (termsOf r) (antsOf r) (defnOf r) (termsOf r) g t ht

theorem WFB_modifyData {g : Graph} {w p : String} {f : SynsetData → SynsetData}
    (h : WFB g = true) : WFB (modifyData g w p f) = true := by
  rw [WFB_iff] at h ⊢
  constructor
  · rw [keysOf_modifyData]; exact h.1
  · intro e' he'
    rcases mem_modifyData_elim he' with ⟨e, he, _, heq⟩ | ⟨e, he, _, heq⟩
    · subst heq
      exact h.2 e' he
    · subst heq
      show (keysOf (e.2.map _)).Nodup
      have hk : keysOf (e.2.map (fun pe => if pe.1 = p then (pe.1, f pe.2) else pe)) =
          keysOf e.2 := by
        unfold keysOf
        rw [List.map_map]
        apply List.map_congr_left
        intro pe _
        by_cases hp : pe.1 = p <;> simp [hp]
      rw [hk]
      exact h.2 e he

theorem WFB_addTermStep {pos : String} {terms ants : List String} {defn : String}
    {g : Graph} {word : String} (h : WFB g = true) :
    WFB (addTermStep pos terms ants defn g word) = true := by
  unfold addTermStep
  apply WFB_modifyData
  apply WFB_modifyData
  apply WFB_modifyData
  by_cases hk : hasKey g word = true
  · rw [if_pos hk]; exact h
  · rw [if_neg hk]
    rw [WFB_iff] at h ⊢
    constructor
    · rw [keysOf_append, List.nodup_append]
      have hn : word ∉ keysOf g := fun hmem => hk ((hasKey_iff g word).mpr hmem)
      refine ⟨h.1, ?_, ?_⟩
      · simp [keysOf]
      · intro y hy hy2
        have hyw : y = word := by simpa [keysOf] using hy2
        subst hyw
        exact hn hy
    · intro e he
      rcases List.mem_append.mp he with h2 | h2
      · exact h.2 e h2
      · simp at h2
        subst h2
        simp [keysOf]

theorem SelfExclB_modifyData {g : Graph} {w p : String} {f : SynsetData → SynsetData}
    (hf : ∀ d, w ∉ d.synonyms → w ∉ (f d).synonyms)
    (hg : SelfExclB g = true) : SelfExclB (modifyData g w p f) = true := by
  rw [SelfExclB_iff] at hg ⊢
  intro e' he' pe' hpe'
  rcases mem_modifyData_elim he' with ⟨e, he, _, heq⟩ | ⟨e, he, hw, heq⟩
  · subst heq
    exact hg e' he pe' hpe'
  · subst heq
    rcases mem_posMap_elim hpe' with ⟨pe, hpe, _, heq2⟩ | ⟨pe, hpe, _, heq2⟩
    · subst heq2
      exact hg e he pe' hpe
    · subst heq2
      have h1 : w ∉ pe.2.synonyms := by
        rw [← hw]
        exact hg e he pe hpe
      have h2 := hf pe.2 h1
      show e.1 ∉ (f pe.2).synonyms
      rw [hw]
      exact h2

theorem SelfExclB_addTermStep {pos : String} {terms ants : List String} {defn : String}
    {g : Graph} {word : String} (hg : SelfExclB g = true) :
    SelfExclB (addTermStep pos terms ants defn g word) = true := by
  unfold addTermStep
  apply SelfExclB_modifyData
  · intro d hd; exact hd
  · apply SelfExclB_modifyData
    · intro d hd; exact hd
    · apply SelfExclB_modifyData
      · intro d hd hmem
        rcases (mem_synFold terms word d.synonyms word).mp hmem with h | h
        · exact hd h
        · exact h.2 rfl
      · by_cases hk : hasKey g word = true
        · rw [if_pos hk]; exact hg
        · rw [if_neg hk]
          rw [SelfExclB_iff] at hg ⊢
          intro e he pe hpe
          rcases List.mem_append.mp he with h2 | h2
          · exact hg e h2 pe hpe
          · simp at h2
            subst h2
            simp at hpe
            subst hpe
            simp [emptyData]

theorem KeysNE_modifyData {g : Graph} {w p : String} {f : SynsetData → SynsetData}
    (h : KeysNE g) : KeysNE (modifyData g w p f) := by
  intro e' he'
  rcases mem_modifyData_elim he' with ⟨e, he, _, heq⟩ | ⟨e, he, _, heq⟩
  · subst heq
    exact h e' he
  · subst heq
    exact h e he

theorem KeysNE_addTermStep {pos : String} {terms ants : List String} {defn : String}
    {g : Graph} {word : String} (hword : word ≠ "") (h : KeysNE g) :
    KeysNE (addTermStep pos terms ants defn g word) := by
  unfold addTermStep
  apply KeysNE_modifyData
  apply KeysNE_modifyData
  apply KeysNE_modifyData
  by_cases hk : hasKey g word = true
  · rw [if_pos hk]; exact h
  · rw [if_neg hk]
    intro e he
    rcases List.mem_append.mp he with h2 | h2
    · exact h e h2
    · simp at h2
      subst h2
      exact hword

theorem allSyns_modifyData_sub {g : Graph} {w p : String} {f : SynsetData → SynsetData}
    (extra : List String) :
    ∀ x, x ∈ allSynsList (modifyData g w p f) →
      (∀ d y, y ∈ (f d).synonyms → y ∈ d.synonyms ∨ y ∈ extra) →
      x ∈ allSynsList g ∨ x ∈ extra := by
  intro x hx hf
  obtain ⟨e', he', pe', hpe', hxs⟩ := (mem_allSynsList _ x).mp hx
  rcases mem_modifyData_elim he' with ⟨e, he, _, heq⟩ | ⟨e, he, _, heq⟩
  · subst heq
    exact Or.inl ((mem_allSynsList g x).mpr ⟨e', he, pe', hpe', hxs⟩)
  · subst heq
    rcases mem_posMap_elim hpe' with ⟨pe, hpe, _, heq2⟩ | ⟨pe, hpe, _, heq2⟩
    · subst heq2
      exact Or.inl ((mem_allSynsList g x).mpr ⟨e, he, pe', hpe, hxs⟩)
    · subst heq2
      rcases hf pe.2 x hxs with h | h
      · exact Or.inl ((mem_allSynsList g x).mpr ⟨e, he, pe, hpe, h⟩)
      · exact Or.inr h

theorem allSynsList_append (g1 g2 : Graph) :
    allSynsList (g1 ++ g2) = allSynsList g1 ++ allSynsList g2 := by
  simp [allSynsList]

theorem allSyns_addTermStep {pos : String} {terms ants : List String} {defn : String}
    {g : Graph} {word : String} :
    ∀ x, x ∈ allSynsList (addTermStep pos terms ants defn g word) →
      x ∈ allSynsList g ∨ x ∈ terms := by
  unfold addTermStep
  intro x hx
  rcases allSyns_modifyData_sub terms x hx (fun d y h => Or.inl h) with hx2 | hterm
  · rcases allSyns_modifyData_sub terms x hx2 (fun d y h => Or.inl h) with hx3 | hterm
    · rcases allSyns_modifyData_sub terms x hx3
        (fun d y h => ((mem_synFold terms word d.synonyms y).mp h).imp id And.left)
        with hx4 | hterm
      · by_cases hk : hasKey g word = true
        · rw [if_pos hk] at hx4
          exact Or.inl hx4
        · rw [if_neg hk, allSynsList_append] at hx4
          rcases List.mem_append.mp hx4 with h2 | h2
          · exact Or.inl h2
          · simp [allSynsList, emptyData] at h2
      · exact Or.inr hterm
    · exact Or.inr hterm
  · exact Or.inr hterm

theorem WFB_addSynset {pos : String} {g : Graph} {r : RawSynset} (h : WFB g = true) :
    WFB (addSynset pos g r) = true := by
  unfold addSynset
  exact foldl_inv (fun g' => WFB g' = true) _ _ g h
    (fun g' b _ hb => WFB_addTermStep hb)

theorem SelfExclB_addSynset {pos : String} {g : Graph} {r : RawSynset}
    (h : SelfExclB g = true) : SelfExclB (addSynset pos g r) = true := by
  unfold addSynset
  exact foldl_inv (fun g' => SelfExclB g' = true) _ _ g h
    (fun g' b _ hb => SelfExclB_addTermStep hb)

theorem KeysNE_addSynset {pos : String} {g : Graph} {r : RawSynset}
    (h : KeysNE g) : KeysNE (addSynset pos g r) := by
  unfold addSynset
  exact foldl_inv KeysNE _ _ g h
    (fun g' b hb hg => KeysNE_addTermStep (mem_termsOf_ne hb) hg)

theorem ClosedB_addSynset {pos : String} {g : Graph} {r : RawSynset}
    (h : ClosedB g = true) : ClosedB (addSynset pos g r) = true := by
  have origin : ∀ x, x ∈ allSynsList (addSynset pos g r) →
      x ∈ allSynsList g ∨ x ∈ termsOf r := by
    intro x
    unfold addSynset
    refine foldl_inv
      (fun g' => ∀ y, y ∈ allSynsList g' → y ∈ allSynsList g ∨ y ∈ termsOf r)
      _ _ _ (fun y hy => Or.inl hy) ?_ x
    intro g' b _ hP y hy
    rcases allSyns_addTermStep y hy with h2 | h2
    · exact hP y h2
    · exact Or.inr h2
  rw [ClosedB_iff_allSyns] at h ⊢
  intro x hx
  rcases origin x hx with h2 | h2
  · exact hasKey_addSynset_mono (h x h2)
  · exact hasKey_addSynset_term x h2

theorem WFB_build (xml_file : String) (parsed : Option (List RawSynset)) :
    WFB (build_word_info xml_file parsed) = true := by
  rcases parsed with _ | synsets
  · exact (by decide : WFB ([] : Graph) = true)
  · show WFB (synsets.foldl (addSynset (part_of_speech_of xml_file)) []) = true
    exact foldl_inv (fun g' => WFB g' = true) _ _ _ (by decide)
      (fun g' b _ hb => WFB_addSynset hb)

theorem SelfExclB_build (xml_file : String) (parsed : Option (List RawSynset)) :
    SelfExclB (build_word_info xml_file parsed) = true := by
  rcases parsed with _ | synsets
  · exact (by decide : SelfExclB ([] : Graph) = true)
  · show SelfExclB (synsets.foldl (addSynset (part_of_speech_of xml_file)) []) = true
    exact foldl_inv (fun g' => SelfExclB g' = true) _ _ _ (by decide)
      (fun g' b _ hb => SelfExclB_addSynset hb)

theorem ClosedB_build (xml_file : String) (parsed : Option (List RawSynset)) :
    ClosedB (build_word_info xml_file parsed) = true := by
  rcases parsed with _ | synsets
  · exact (by decide : ClosedB ([] : Graph) = true)
  · show ClosedB (synsets.foldl (addSynset (part_of_speech_of xml_file)) []) = true
    exact foldl_inv (fun g' => ClosedB g' = true) _ _ _ (by decide)
      (fun g' b _ hb => ClosedB_addSynset hb)

theorem KeysNE_build (xml_file : String) (parsed : Option (List RawSynset)) :
    KeysNE (build_word_info xml_file parsed) := by
  rcases parsed with _ | synsets
  · intro e he; simp [build_word_info] at he
  · show KeysNE (synsets.foldl (addSynset (part_of_speech_of xml_file)) [])
    refine foldl_inv KeysNE _ _ _ ?_ (fun g' b _ hb => KeysNE_addSynset hb)
    intro e he; simp at he

theorem KeysNE_combine {g1 g2 : Graph} (h1 : KeysNE g1) (h2 : KeysNE g2) :
    KeysNE (combine_dicionaries g1 g2) := by
  intro e he
  refine mergeA_entries (fun en : String × WordData => en.1 ≠ "") ?_ g2 g1 h1 h2 e he
  intro k a b ha _
  exact ha

/-- All four structural invariants hold of every pipeline graph. -/
theorem good_make_word_info (files : List (String × Option (List RawSynset))) :
    WFB (make_word_info files) = true ∧ SelfExclB (make_word_info files) = true ∧
    ClosedB (make_word_info files) = true ∧ KeysNE (make_word_info files) := by
  unfold make_word_info
  refine foldl_inv
    (fun g => WFB g = true ∧ SelfExclB g = true ∧ ClosedB g = true ∧ KeysNE g)
    _ _ _ ⟨by decide, by decide, by decide, fun e he => by simp at he⟩ ?_
  intro g f _ hg
  obtain ⟨hw, hs, hc, hk⟩ := hg
  exact ⟨WFB_combine hw (WFB_build f.1 f.2),
         SelfExclB_combine hs (SelfExclB_build f.1 f.2),
         ClosedB_combine hc (ClosedB_build f.1 f.2),
         KeysNE_combine hk (KeysNE_build f.1 f.2)⟩

theorem hasKey_empty_string {g : Graph} (h : KeysNE g) : hasKey g "" = false := by
  rcases hk : hasKey g "" with _ | _
  · rfl
  · exfalso
    have hmem := (hasKey_iff g "").mp hk
    obtain ⟨e, he, heq⟩ := List.mem_map.mp hmem
    exact h e he heq

/-! ### Snapshot (JSON) lemmas -/

theorem strList_map_str (l : List String) : strList (l.map Json.str) = some l := by
  induction l with
  | nil => rfl
  | cons a rest ih => simp [strList, ih]

theorem lookupA_cons_self {α : Type} (k : String) (v : α) (l : List (String × α)) :
    lookupA ((k, v) :: l) k = some v := by
  simp [lookupA]

theorem lookupA_cons_ne {α : Type} {k k' : String} (v : α) (l : List (String × α))
    (h : ¬ (k = k')) : lookupA ((k, v) :: l) k' = lookupA l k' := by
  simp [lookupA, h]

theorem json_load_data_dataToJson (d : SynsetData) :
    json_load_data (dataToJson d) = some d := by
  unfold dataToJson
  simp only [json_load_data]
  rw [lookupA_cons_self, lookupA_cons_ne _ _ (by decide), lookupA_cons_self,
    lookupA_cons_ne _ _ (by decide), lookupA_cons_ne _ _ (by decide), lookupA_cons_self]
  simp [strList_map_str]

theorem optMap_map_some {α β : Type} (f : α → Option β) (enc : β → α) (l : List β)
    (h : ∀ b ∈ l, f (enc b) = some b) : optMap f (l.map enc) = some l := by
  induction l with
  | nil => rfl
  | cons a rest ih =>
    simp only [List.map_cons, optMap]
    rw [h a (List.mem_cons_self a rest), ih (fun b hb => h b (List.mem_cons_of_mem _ hb))]
    rfl

theorem json_load_word_roundtrip (wd : WordData) :
    json_load_word (Json.obj (wd.map (fun pe => (pe.1, dataToJson pe.2)))) = some wd := by
  unfold json_load_word
  refine optMap_map_some _ _ wd ?_
  intro pe _
  simp [json_load_data_dataToJson]

theorem json_load_json_dump (g : Graph) : json_load (json_dump g) = some g := by
  unfold json_dump json_load
  refine optMap_map_some _ _ g ?_
  intro e _
  simp [json_load_word_roundtrip]

theorem convert_sets_to_lists_id (g : Graph) : convert_sets_to_lists g = g := by
  unfold convert_sets_to_lists
  simp

theorem GraphEquiv_refl (g : Graph) : GraphEquiv g g :=
  ⟨fun _ => rfl, fun _ _ => rfl, fun _ _ _ => Iff.rfl, fun _ _ _ => Iff.rfl,
   fun _ _ _ => Iff.rfl⟩

theorem strArrB_map_str (l : List String) : strArrB (Json.arr (l.map Json.str)) = true := by
  unfold strArrB
  rw [List.all_eq_true]
  intro j hj
  obtain ⟨s, _, heq⟩ := List.mem_map.mp hj
  subst heq
  rfl

theorem dataShapeB_dataToJson (d : SynsetData) :
    dataShapeB ["synonyms", "antonyms", "definition"] (dataToJson d) = true := by
  unfold dataToJson dataShapeB
  rw [Bool.and_eq_true]
  constructor
  · rfl
  · rw [List.all_eq_true]
    intro fe hfe
    simp only [List.mem_cons, List.not_mem_nil, or_false] at hfe
    rcases hfe with h | h | h <;> subst h <;> exact strArrB_map_str _

theorem snapshotShapeB_json_dump (g : Graph) :
    snapshotShapeB ["synonyms", "antonyms", "definition"] (json_dump g) = true := by
  unfold json_dump snapshotShapeB
  rw [List.all_eq_true]
  intro we hwe
  obtain ⟨e, _, heq⟩ := List.mem_map.mp hwe
  subst heq
  show (e.2.map (fun pe => (pe.1, dataToJson pe.2))).all _ = true
  rw [List.all_eq_true]
  intro pe hpe
  obtain ⟨pe0, _, heq2⟩ := List.mem_map.mp hpe
  subst heq2
  exact dataShapeB_dataToJson pe0.2

theorem jsonWords_json_dump (g : Graph) : jsonWords (json_dump g) = keysOf g := by
  unfold json_dump
  simp only [jsonWords]
  unfold keysOf
  rw [List.map_map]
  apply List.map_congr_left
  intro e _
  rfl

/-! ### Visited-map lemmas -/

theorem entries_unique {α : Type} {l : List (String × α)} (hnd : (keysOf l).Nodup)
    {w : String} {v v' : α} (h1 : (w, v) ∈ l) (h2 : (w, v') ∈ l) : v = v' := by
  have e1 := lookupA_of_mem_nodup h1 hnd
  have e2 := lookupA_of_mem_nodup h2 hnd
  rw [e1] at e2
  exact Option.some.inj e2

theorem hasKey_exists {α : Type} {l : List (String × α)} {w : String}
    (h : hasKey l w = true) : ∃ v, (w, v) ∈ l := by
  unfold hasKey at h
  rcases hl : lookupA l w with _ | v
  · rw [hl] at h; simp at h
  · exact ⟨v, lookupA_mem hl⟩

theorem hasKey_of_mem {α : Type} {l : List (String × α)} {w : String} {v : α}
    (h : (w, v) ∈ l) : hasKey l w = true := by
  rw [hasKey_iff]
  unfold keysOf
  exact List.mem_map.mpr ⟨(w, v), h, rfl⟩

theorem nbrs_eq {g : Graph} {c : String} {wd : WordData} (h : lookupA g c = some wd) :
    nbrs g c = wd.flatMap (fun pe => pe.2.synonyms) := by
  unfold nbrs
  rw [h]

theorem edge_mem_allSyns {g : Graph} {a b : String} (h : edge g a b) :
    b ∈ allSynsList g := by
  unfold edge at h
  rcases hl : lookupA g a with _ | wd
  · unfold nbrs at h
    rw [hl] at h
    simp at h
  · rw [nbrs_eq hl] at h
    obtain ⟨pe, hpe, hb⟩ := List.mem_flatMap.mp h
    exact (mem_allSynsList g b).mpr ⟨(a, wd), lookupA_mem hl, pe, hpe, hb⟩

theorem lookupA_stripV (V : VisD) (w : String) :
    lookupA (stripV V) w = (lookupA V w).map (fun pd => pd.1) :=
  lookupA_map_val V _ w

theorem hasKey_stripV (V : VisD) (w : String) : hasKey (stripV V) w = hasKey V w := by
  unfold hasKey
  rw [lookupA_stripV]
  rcases lookupA V w with _ | pd <;> rfl

theorem visOK_mem_init {g : Graph} {s : String} {V : VisD} (h : VisOK g s V) :
    (s, (none, 0)) ∈ V := by
  induction h with
  | init => exact List.mem_cons_self _ _
  | snoc h hmem hedge hnew ih => exact List.mem_append_left _ ih

theorem visOK_keys_nodup {g : Graph} {s : String} {V : VisD} (h : VisOK g s V) :
    (keysOf V).Nodup := by
  induction h with
  | init => simp [keysOf]
  | @snoc V w pc pr d hv hmem hedge hnew ih =>
    rw [keysOf_append, List.nodup_append]
    refine ⟨ih, by simp [keysOf], ?_⟩
    intro y hy hy2
    have hyw : y = w := by simpa [keysOf] using hy2
    subst hyw
    rw [← hasKey_iff] at hy
    rw [hy] at hnew
    exact Bool.true_eq_false.mp hnew

theorem visOK_unique {g : Graph} {s : String} {V : VisD} (h : VisOK g s V)
    {w : String} {pd pd' : Option String × Nat}
    (h1 : (w, pd) ∈ V) (h2 : (w, pd') ∈ V) : pd = pd' :=
  entries_unique (visOK_keys_nodup h) h1 h2

theorem visOK_reach {g : Graph} {s : String} {V : VisD} (h : VisOK g s V) :
    ∀ w pr d, (w, (pr, d)) ∈ V → ReachIn g s d w := by
  induction h with
  | init =>
    intro w pr d hmem
    simp at hmem
    obtain ⟨rfl, rfl, rfl⟩ := hmem
    exact ReachIn.zero
  | @snoc V w0 pc pr0 d0 hv hmem hedge hnew ih =>
    intro w pr d hmem2
    rcases List.mem_append.mp hmem2 with h2 | h2
    · exact ih w pr d h2
    · simp at h2
      obtain ⟨rfl, rfl, rfl⟩ := h2
      exact ReachIn.succ (ih pc pr0 d0 hmem) hedge

theorem visOK_pred {g : Graph} {s : String} {V : VisD} (h : VisOK g s V) :
    ∀ w pr d, (w, (pr, d)) ∈ V →
      (w = s ∧ pr = none ∧ d = 0) ∨
      (∃ pc d0, pr = some pc ∧ d = d0 + 1 ∧
        (∃ pr0, (pc, (pr0, d0)) ∈ V) ∧ edge g pc w) := by
  induction h with
  | init =>
    intro w pr d hmem
    simp at hmem
    exact Or.inl hmem
  | @snoc V w0 pc pr0 d0 hv hmem hedge hnew ih =>
    intro w pr d hmem2
    rcases List.mem_append.mp hmem2 with h2 | h2
    · rcases ih w pr d h2 with h3 | ⟨pc1, d1, he1, he2, ⟨pr1, hm⟩, hed⟩
      · exact Or.inl h3
      · exact Or.inr ⟨pc1, d1, he1, he2, ⟨pr1, List.mem_append_left _ hm⟩, hed⟩
    · simp at h2
      obtain ⟨rfl, rfl, rfl⟩ := h2
      exact Or.inr ⟨pc, d0, rfl, rfl, ⟨pr0, List.mem_append_left _ hmem⟩, hedge⟩

theorem visOK_depth_lt {g : Graph} {s : String} {V : VisD} (h : VisOK g s V) :
    ∀ w pr d, (w, (pr, d)) ∈ V → d < V.length := by
  induction h with
  | init =>
    intro w pr d hmem
    simp at hmem
    obtain ⟨rfl, rfl, rfl⟩ := hmem
    simp
  | @snoc V w0 pc pr0 d0 hv hmem hedge hnew ih =>
    intro w pr d hmem2
    rw [List.length_append]
    rcases List.mem_append.mp hmem2 with h2 | h2
    · have := ih w pr d h2
      omega
    · simp at h2
      obtain ⟨rfl, rfl, rfl⟩ := h2
      have := ih pc pr0 d0 hmem
      simp
      omega

theorem visOK_keys_sub {g : Graph} {s : String} {V : VisD} (h : VisOK g s V) :
    ∀ e ∈ V, e.1 = s ∨ e.1 ∈ allSynsList g := by
  induction h with
  | init =>
    intro e he
    simp at he
    subst he
    exact Or.inl rfl
  | @snoc V w0 pc pr0 d0 hv hmem hedge hnew ih =>
    intro e he
    rcases List.mem_append.mp he with h2 | h2
    · exact ih e h2
    · simp at h2
      subst h2
      exact Or.inr (edge_mem_allSyns hedge)

theorem visOK_length_le {g : Graph} {s : String} {V : VisD} (h : VisOK g s V) :
    V.length ≤ (s :: allSynsList g).toFinset.card := by
  have hnd := visOK_keys_nodup h
  have hsub : ∀ y ∈ keysOf V, y ∈ s :: allSynsList g := by
    intro y hy
    unfold keysOf at hy
    obtain ⟨e, he, heq⟩ := List.mem_map.mp hy
    subst heq
    rcases visOK_keys_sub h e he with h2 | h2
    · rw [h2]
      exact List.mem_cons_self _ _
    · exact List.mem_cons_of_mem _ h2
  have h1 : V.length = (keysOf V).length := by simp [keysOf]
  rw [h1, ← List.toFinset_card_of_nodup hnd]
  apply Finset.card_le_card
  intro y hy
  rw [List.mem_toFinset] at hy ⊢
  exact hsub y hy

/-! ### Enqueue-fold characterization and simulation -/

theorem enqFold_char (c : String) (dc : Nat) (syns : List String) :
    ∀ V Q, ∃ xs : List String,
      syns.foldl (enqStepD c dc) (V, Q) =
        (V ++ xs.map (fun x => (x, (some c, dc + 1))), Q ++ xs.map (fun x => (x, dc + 1))) ∧
      xs.Nodup ∧ (∀ x ∈ xs, x ∈ syns ∧ hasKey V x = false) ∧
      (∀ x ∈ syns, hasKey V x = true ∨ x ∈ xs) := by
  induction syns with
  | nil =>
    intro V Q
    exact ⟨[], by simp, List.nodup_nil, by simp, by simp⟩
  | cons a rest ih =>
    intro V Q
    simp only [List.foldl_cons]
    by_cases ha : hasKey V a = true
    · have hstep : enqStepD c dc (V, Q) a = (V, Q) := by
        unfold enqStepD
        simp [ha]
      rw [hstep]
      obtain ⟨xs, heq, hnd, hmem, hcover⟩ := ih V Q
      refine ⟨xs, heq, hnd, ?_, ?_⟩
      · intro x hx
        have h2 := hmem x hx
        exact ⟨List.mem_cons_of_mem _ h2.1, h2.2⟩
      · intro x hx
        rcases List.mem_cons.mp hx with rfl | hx2
        · exact Or.inl ha
        · exact hcover x hx2
    · have ha' : hasKey V a = false := by
        rcases hb : hasKey V a with _ | _
        · rfl
        · exact absurd hb ha
      have hstep : enqStepD c dc (V, Q) a =
          (V ++ [(a, (some c, dc + 1))], Q ++ [(a, dc + 1)]) := by
        unfold enqStepD
        simp [ha']
      rw [hstep]
      obtain ⟨xs, heq, hnd, hmem, hcover⟩ :=
        ih (V ++ [(a, (some c, dc + 1))]) (Q ++ [(a, dc + 1)])
      have hKa : hasKey (V ++ [(a, (some c, dc + 1))]) a = true := by
        rw [hasKey_append]
        have h2 : hasKey [(a, (some c, dc + 1))] a = true := by
          simp [hasKey, lookupA]
        simp [h2]
      refine ⟨a :: xs, ?_, ?_, ?_, ?_⟩
      · rw [heq]
        simp [List.append_assoc]
      · rw [List.nodup_cons]
        refine ⟨?_, hnd⟩
        intro hmem2
        have h2 := (hmem a hmem2).2
        rw [hKa] at h2
        exact Bool.true_eq_false.mp h2
      · intro x hx
        rcases List.mem_cons.mp hx with rfl | hx2
        · exact ⟨List.mem_cons_self _ _, ha'⟩
        · have h2 := hmem x hx2
          refine ⟨List.mem_cons_of_mem _ h2.1, ?_⟩
          have h3 := h2.2
          rw [hasKey_append] at h3
          exact (Bool.or_eq_false_iff.mp h3).1
      · intro x hx
        rcases List.mem_cons.mp hx with rfl | hx2
        · exact Or.inr (List.mem_cons_self _ _)
        · rcases hcover x hx2 with h2 | h2
          · rw [hasKey_append] at h2
            rcases Bool.or_eq_true_iff.mp h2 with h3 | h3
            · exact Or.inl h3
            · simp [hasKey, lookupA] at h3
              by_cases hax : a = x
              · subst hax
                exact Or.inr (List.mem_cons_self _ _)
              · simp [hax] at h3
          · exact Or.inr (List.mem_cons_of_mem _ h2)

theorem stripFold (c : String) (dc : Nat) (syns : List String) :
    ∀ (V : VisD) (Q : QD),
      syns.foldl
        (fun st syn => if hasKey st.1 syn then st
          else (st.1 ++ [(syn, some c)], st.2 ++ [syn]))
        (stripV V, stripQ Q) =
      (stripV (syns.foldl (enqStepD c dc) (V, Q)).1,
       stripQ (syns.foldl (enqStepD c dc) (V, Q)).2) := by
  induction syns with
  | nil => intro V Q; rfl
  | cons a rest ih =>
    intro V Q
    simp only [List.foldl_cons]
    by_cases ha : hasKey V a = true
    · have h1 : hasKey (stripV V) a = true := by rw [hasKey_stripV]; exact ha
      have hstep : enqStepD c dc (V, Q) a = (V, Q) := by
        unfold enqStepD
        simp [ha]
      rw [hstep]
      have hplain :
          (if hasKey (stripV V, stripQ Q).1 a then (stripV V, stripQ Q)
           else ((stripV V, stripQ Q).1 ++ [(a, some c)], (stripV V, stripQ Q).2 ++ [a])) =
          (stripV V, stripQ Q) := by
        simp [h1]
      rw [hplain]
      exact ih V Q
    · have ha' : hasKey V a = false := by
        rcases hb : hasKey V a with _ | _
        · rfl
        · exact absurd hb ha
      have h1 : hasKey (stripV V) a = false := by rw [hasKey_stripV]; exact ha'
      have hstep : enqStepD c dc (V, Q) a =
          (V ++ [(a, (some c, dc + 1))], Q ++ [(a, dc + 1)]) := by
        unfold enqStepD
        simp [ha']
      rw [hstep]
      have hplain :
          (if hasKey (stripV V, stripQ Q).1 a then (stripV V, stripQ Q)
           else ((stripV V, stripQ Q).1 ++ [(a, some c)], (stripV V, stripQ Q).2 ++ [a])) =
          (stripV (V ++ [(a, (some c, dc + 1))]), stripQ (Q ++ [(a, dc + 1)])) := by
        have h1' : ¬ (hasKey (stripV V) a = true) := by simp [h1]
        rw [if_neg h1']
        unfold stripV stripQ
        simp
      rw [hplain]
      exact ih (V ++ [(a, (some c, dc + 1))]) (Q ++ [(a, dc + 1)])

theorem bfsLoop_eq_bfsD (g : Graph) (endW : String) :
    ∀ (fuel : Nat) (V : VisD) (Q : QD),
      bfsLoop g endW fuel (stripV V) (stripQ Q) = stripRes (bfsD g endW fuel V Q) := by
  intro fuel
  induction fuel with
  | zero => intro V Q; rfl
  | succ fuel ih =>
    intro V Q
    rcases Q with _ | ⟨⟨c, dc⟩, rest⟩
    · rfl
    · show bfsLoop g endW (fuel + 1) (stripV V) (c :: stripQ rest) = _
      by_cases hc : c = endW
      · simp only [bfsLoop, bfsD, if_pos hc]
        rfl
      · rcases hl : lookupA g c with _ | wd
        · simp only [bfsLoop, bfsD, if_neg hc, hl]
          rfl
        · simp only [bfsLoop, bfsD, if_neg hc, hl]
          have hfold := stripFold c dc (wd.flatMap (fun pe => pe.2.synonyms)) V rest
          rcases hst : (wd.flatMap (fun pe => pe.2.synonyms)).foldl (enqStepD c dc) (V, rest)
            with ⟨V', Q'⟩
          rw [hst] at hfold
          rw [hfold]
          exact ih V' Q'

/-! ### BFS invariant preservation -/

theorem reachIn_zero_iff {g : Graph} {s w : String} : ReachIn g s 0 w ↔ w = s := by
  constructor
  · intro h
    cases h
    rfl
  · rintro rfl
    exact ReachIn.zero

theorem reachIn_succ_iff {g : Graph} {s w : String} {k : Nat} :
    ReachIn g s (k + 1) w ↔ ∃ u, ReachIn g s k u ∧ edge g u w := by
  constructor
  · intro h
    cases h with
    | succ hu he => exact ⟨_, hu, he⟩
  · rintro ⟨u, hu, he⟩
    exact ReachIn.succ hu he

/-- When the head of the queue sits at depth `dc`, every word within `dc`
hops of the start has already been visited. -/
theorem reachable_visited {g : Graph} {s : String} {V : VisD} {c : String} {dc : Nat}
    {rest : QD} (inv : BfsInv g s V ((c, dc) :: rest)) :
    ∀ k, k ≤ dc → ∀ w, ReachIn g s k w → hasKey V w = true := by
  intro k
  induction k with
  | zero =>
    intro _ w hw
    rw [reachIn_zero_iff] at hw
    subst hw
    exact hasKey_of_mem (visOK_mem_init inv.visOK)
  | succ k ih =>
    intro hk w hw
    obtain ⟨u, hu, hedge⟩ := reachIn_succ_iff.mp hw
    have hku : k ≤ dc := Nat.le_of_succ_le hk
    have hKu : hasKey V u = true := ih hku u hu
    obtain ⟨pdu, hmemu⟩ := hasKey_exists hKu
    obtain ⟨pru, du⟩ := pdu
    have hdu : du ≤ k := inv.depthMin (u, (pru, du)) hmemu k hu
    have hnotq : u ∉ stripQ ((c, dc) :: rest) := by
      intro hq
      unfold stripQ at hq
      obtain ⟨b, hb, hbeq⟩ := List.mem_map.mp hq
      obtain ⟨prb, hmemb⟩ := inv.qlink b hb
      rw [hbeq] at hmemb
      have huniq := visOK_unique inv.visOK hmemb hmemu
      have hb2 : b.2 = du := congrArg Prod.snd huniq
      have hge : dc ≤ b.2 := by
        rcases List.mem_cons.mp hb with heq | hb3
        · rw [heq]
        · exact (List.pairwise_cons.mp inv.qmono).1 b hb3
      omega
    obtain ⟨prw, dw, hmemw, _⟩ := inv.expanded (u, (pru, du)) hmemu hnotq w hedge
    exact hasKey_of_mem hmemw

theorem visOK_snocAll {g : Graph} {s c : String} {dc : Nat} :
    ∀ (xs : List String) (V : VisD), VisOK g s V → (∃ prc, (c, (prc, dc)) ∈ V) →
      xs.Nodup → (∀ x ∈ xs, edge g c x ∧ hasKey V x = false) →
      VisOK g s (V ++ xs.map (fun x => (x, (some c, dc + 1)))) := by
  intro xs
  induction xs with
  | nil =>
    intro V hv _ _ _
    simpa using hv
  | cons a rest ih =>
    intro V hv hcx hnd hmem
    obtain ⟨prc, hc⟩ := hcx
    have ha := hmem a (List.mem_cons_self a rest)
    have hstep : VisOK g s (V ++ [(a, (some c, dc + 1))]) := VisOK.snoc hv hc ha.1 ha.2
    have hmem' : ∀ x ∈ rest, edge g c x ∧ hasKey (V ++ [(a, (some c, dc + 1))]) x = false := by
      intro x hx
      refine ⟨(hmem x (List.mem_cons_of_mem _ hx)).1, ?_⟩
      rw [hasKey_append]
      have h1 : hasKey V x = false := (hmem x (List.mem_cons_of_mem _ hx)).2
      have hne : ¬ (a = x) := by
        intro heq
        exact (List.nodup_cons.mp hnd).1 (by rw [heq]; exact hx)
      have h2 : hasKey [(a, (some c, dc + 1))] x = false := by
        simp [hasKey, lookupA, hne]
      rw [h1, h2]
      rfl
    have hres := ih (V ++ [(a, (some c, dc + 1))]) hstep
      ⟨prc, List.mem_append_left _ hc⟩ (List.nodup_cons.mp hnd).2 hmem'
    have hshape : V ++ ((a :: rest).map (fun x => (x, (some c, dc + 1)))) =
        (V ++ [(a, (some c, dc + 1))]) ++ rest.map (fun x => (x, (some c, dc + 1))) := by
      simp
    rw [hshape]
    exact hres

/-- One expansion step of the instrumented search preserves the invariant. -/
theorem bfsInv_step {g : Graph} {s : String} {V : VisD} {c : String} {dc : Nat}
    {rest : QD} {wd : WordData}
    (inv : BfsInv g s V ((c, dc) :: rest)) (hwd : lookupA g c = some wd)
    {V' : VisD} {Q' : QD}
    (hfold : (wd.flatMap (fun pe => pe.2.synonyms)).foldl (enqStepD c dc) (V, rest) =
      (V', Q')) :
    BfsInv g s V' Q' := by
  obtain ⟨xs, heqf, hxnd, hxmem, hxcover⟩ :=
    enqFold_char c dc (wd.flatMap (fun pe => pe.2.synonyms)) V rest
  rw [hfold] at heqf
  injection heqf with hV' hQ'
  subst hV'
  subst hQ'
  obtain ⟨prc, hc⟩ := inv.qlink (c, dc) (List.mem_cons_self _ _)
  have hedgexs : ∀ x ∈ xs, edge g c x := by
    intro x hx
    have h2 := (hxmem x hx).1
    unfold edge
    rw [nbrs_eq hwd]
    exact h2
  have hrestge : ∀ b ∈ rest, dc ≤ b.2 := (List.pairwise_cons.mp inv.qmono).1
  have hrestle : ∀ b ∈ rest, b.2 ≤ dc + 1 := fun b hb =>
    inv.qspread (c, dc) (List.mem_cons_self _ _) b (List.mem_cons_of_mem _ hb)
  have hQbound : ∀ b ∈ rest ++ xs.map (fun x => (x, dc + 1)), dc ≤ b.2 ∧ b.2 ≤ dc + 1 := by
    intro b hb
    rcases List.mem_append.mp hb with hb | hb
    · exact ⟨hrestge b hb, hrestle b hb⟩
    · obtain ⟨x, hx, heq⟩ := List.mem_map.mp hb
      rw [← heq]
      exact ⟨Nat.le_succ dc, Nat.le_refl _⟩
  have hvis' : VisOK g s (V ++ xs.map (fun x => (x, (some c, dc + 1)))) :=
    visOK_snocAll xs V inv.visOK ⟨prc, hc⟩ hxnd
      (fun x hx => ⟨hedgexs x hx, (hxmem x hx).2⟩)
  have hmemV' : ∀ e ∈ V ++ xs.map (fun x => (x, (some c, dc + 1))),
      e ∈ V ∨ ∃ x ∈ xs, e = (x, (some c, dc + 1)) := by
    intro e he
    rcases List.mem_append.mp he with h | h
    · exact Or.inl h
    · obtain ⟨x, hx, heq⟩ := List.mem_map.mp h
      exact Or.inr ⟨x, hx, heq.symm⟩
  refine ⟨hvis', ?_, ?_, ?_, ?_, ?_, ?_, ?_⟩
  · -- qlink
    intro b hb
    rcases List.mem_append.mp hb with hb | hb
    · obtain ⟨pr, hm⟩ := inv.qlink b (List.mem_cons_of_mem _ hb)
      exact ⟨pr, List.mem_append_left _ hm⟩
    · obtain ⟨x, hx, rfl⟩ := List.mem_map.mp hb
      exact ⟨some c, List.mem_append_right _ (List.mem_map.mpr ⟨x, hx, rfl⟩)⟩
  · -- qmono
    rw [List.pairwise_append]
    refine ⟨(List.pairwise_cons.mp inv.qmono).2, ?_, ?_⟩
    · have hall : ∀ (l : List String),
          (l.map (fun x => (x, dc + 1))).Pairwise (fun a b => a.2 ≤ b.2) := by
        intro l
        induction l with
        | nil => simp
        | cons a r ih =>
          simp only [List.map_cons, List.pairwise_cons]
          refine ⟨?_, ih⟩
          intro b hb
          obtain ⟨x, hx, rfl⟩ := List.mem_map.mp hb
          exact Nat.le_refl _
      exact hall xs
    · intro a ha b hb
      obtain ⟨x, hx, rfl⟩ := List.mem_map.mp hb
      exact hrestle a ha
  · -- qspread
    intro a ha b hb
    have hb2 := hQbound b hb
    have ha2 := hQbound a ha
    omega
  · -- qnodup
    unfold stripQ
    rw [List.map_append, List.nodup_append]
    refine ⟨?_, ?_, ?_⟩
    · have hq := inv.qnodup
      unfold stripQ at hq
      simp only [List.map_cons] at hq
      exact (List.nodup_cons.mp hq).2
    · rw [List.map_map]
      have hcongr : ∀ x ∈ xs, ((fun (e : String × Nat) => e.1) ∘ fun x => (x, dc + 1)) x =
          id x := fun x _ => rfl
      rw [List.map_congr_left hcongr, List.map_id]
      exact hxnd
    · intro y hy hy2
      rw [List.map_map] at hy2
      have hyx : y ∈ xs := by
        obtain ⟨x, hx, heq⟩ := List.mem_map.mp hy2
        rw [← heq]
        exact hx
      have hKfalse := (hxmem y hyx).2
      obtain ⟨b, hb, rfl⟩ := List.mem_map.mp hy
      obtain ⟨pr, hm⟩ := inv.qlink b (List.mem_cons_of_mem _ hb)
      have hKtrue := hasKey_of_mem hm
      rw [hKtrue] at hKfalse
      exact Bool.true_eq_false.mp hKfalse
  · -- expanded
    intro e he hnotq u hedge
    have hnotrest : e.1 ∉ stripQ rest := by
      intro hmem2
      apply hnotq
      unfold stripQ at hmem2 ⊢
      rw [List.map_append]
      exact List.mem_append_left _ hmem2
    have hnotxs : e.1 ∉ xs := by
      intro hmem2
      apply hnotq
      unfold stripQ
      rw [List.map_append]
      refine List.mem_append_right _ ?_
      rw [List.map_map]
      exact List.mem_map.mpr ⟨e.1, hmem2, rfl⟩
    rcases hmemV' e he with hV | ⟨x, hx, rfl⟩
    · by_cases hec : e.1 = c
      · have hce : (c, e.2) ∈ V := by
          rw [← hec]
          exact hV
        have he2 : e.2 = (prc, dc) := visOK_unique inv.visOK hce hc
        have hd2 : e.2.2 = dc := by rw [he2]
        have hedgec : edge g c u := by rw [← hec]; exact hedge
        have humem : u ∈ wd.flatMap (fun pe => pe.2.synonyms) := by
          have h2 := hedgec
          unfold edge at h2
          rw [nbrs_eq hwd] at h2
          exact h2
        rcases hxcover u humem with hK | hu
        · obtain ⟨pdu, hmemu⟩ := hasKey_exists hK
          obtain ⟨pru, du⟩ := pdu
          have hdub : du ≤ dc + 1 := inv.vleq (u, (pru, du)) hmemu (c, dc)
            (List.mem_cons_self _ _)
          refine ⟨pru, du, List.mem_append_left _ hmemu, ?_⟩
          rw [hd2]
          exact hdub
        · refine ⟨some c, dc + 1, List.mem_append_right _ (List.mem_map.mpr ⟨u, hu, rfl⟩), ?_⟩
          rw [hd2]
      · have hnotold : e.1 ∉ stripQ ((c, dc) :: rest) := by
          unfold stripQ
          simp only [List.map_cons, List.mem_cons]
          rintro (h2 | h2)
          · exact hec h2
          · exact hnotrest (by unfold stripQ; exact h2)
        obtain ⟨pr, d, hm, hd⟩ := inv.expanded e hV hnotold u hedge
        exact ⟨pr, d, List.mem_append_left _ hm, hd⟩
    · exact absurd hx hnotxs
  · -- vleq
    intro e he b hb
    have hbb := hQbound b hb
    rcases hmemV' e he with hV | ⟨x, hx, rfl⟩
    · have h2 := inv.vleq e hV (c, dc) (List.mem_cons_self _ _)
      omega
    · show dc + 1 ≤ b.2 + 1
      omega
  · -- depthMin
    intro e he k hreach
    rcases hmemV' e he with hV | ⟨x, hx, rfl⟩
    · exact inv.depthMin e hV k hreach
    · show dc + 1 ≤ k
      by_contra hlt
      push_neg at hlt
      have hk : k ≤ dc := Nat.lt_succ_iff.mp hlt
      have hK := reachable_visited inv k hk x hreach
      rw [(hxmem x hx).2] at hK
      exact Bool.false_eq_true.mp hK

/-! ### Main search theorems -/

theorem bfsInv_init (g : Graph) (s : String) : BfsInv g s [(s, (none, 0))] [(s, 0)] := by
  refine ⟨VisOK.init, ?_, ?_, ?_, ?_, ?_, ?_, ?_⟩
  · intro b hb
    simp at hb
    subst hb
    exact ⟨none, List.mem_cons_self _ _⟩
  · simp
  · intro a ha b hb
    simp at ha hb
    subst ha
    subst hb
    simp
  · simp [stripQ]
  · intro e he hnotq u hedge
    exfalso
    simp at he
    subst he
    apply hnotq
    simp [stripQ]
  · intro e he b hb
    simp at he hb
    subst he
    subst hb
    simp
  · intro e he k hr
    simp at he
    subst he
    simp

theorem bfsD_ok {g : Graph} {s endW : String} :
    ∀ (fuel : Nat) (V : VisD) (Q : QD) (V' : VisD),
      BfsInv g s V Q → bfsD g endW fuel V Q = SearchResD.ok V' →
      VisOK g s V' ∧ (∀ e ∈ V', ∀ k, ReachIn g s k e.1 → e.2.2 ≤ k) ∧
      (hasKey V' endW = true ∨ ∀ e ∈ V', ∀ u, edge g e.1 u → hasKey V' u = true) := by
  intro fuel
  induction fuel with
  | zero =>
    intro V Q V' _ h
    exact SearchResD.noConfusion h
  | succ fuel ih =>
    intro V Q V' inv h
    rcases Q with _ | ⟨⟨c, dc⟩, rest⟩
    · have hV : V = V' := by
        have h2 : SearchResD.ok V = SearchResD.ok V' := h
        exact SearchResD.ok.inj h2
      subst hV
      refine ⟨inv.visOK, fun e he k hk => inv.depthMin e he k hk, Or.inr ?_⟩
      intro e he u hedge
      have hnq : e.1 ∉ stripQ ([] : QD) := by simp [stripQ]
      obtain ⟨pr, d, hm, _⟩ := inv.expanded e he hnq u hedge
      exact hasKey_of_mem hm
    · by_cases hc : c = endW
      · have hV : V = V' := by
          simp only [bfsD, if_pos hc] at h
          exact SearchResD.ok.inj h
        subst hV
        refine ⟨inv.visOK, fun e he k hk => inv.depthMin e he k hk, Or.inl ?_⟩
        obtain ⟨pr, hm⟩ := inv.qlink (c, dc) (List.mem_cons_self _ _)
        rw [← hc]
        exact hasKey_of_mem hm
      · rcases hl : lookupA g c with _ | wd
        · simp only [bfsD, if_neg hc, hl] at h
          exact SearchResD.noConfusion h
        · simp only [bfsD, if_neg hc, hl] at h
          rcases hst : (wd.flatMap (fun pe => pe.2.synonyms)).foldl (enqStepD c dc) (V, rest)
            with ⟨V2, Q2⟩
          rw [hst] at h
          exact ih V2 Q2 V' (bfsInv_step inv hl hst) h

theorem bfsD_no_fuelOut {g : Graph} {s endW : String} :
    ∀ (fuel : Nat) (V : VisD) (Q : QD),
      BfsInv g s V Q →
      Q.length + ((s :: allSynsList g).toFinset.card - V.length) < fuel →
      bfsD g endW fuel V Q ≠ SearchResD.fuelOut := by
  intro fuel
  induction fuel with
  | zero =>
    intro V Q _ h
    omega
  | succ fuel ih =>
    intro V Q inv hfuel
    rcases Q with _ | ⟨⟨c, dc⟩, rest⟩
    · simp [bfsD]
    · by_cases hc : c = endW
      · simp [bfsD, hc]
      · rcases hl : lookupA g c with _ | wd
        · simp [bfsD, hc, hl]
        · simp only [bfsD, if_neg hc, hl]
          rcases hst : (wd.flatMap (fun pe => pe.2.synonyms)).foldl (enqStepD c dc) (V, rest)
            with ⟨V2, Q2⟩
          have inv2 := bfsInv_step inv hl hst
          obtain ⟨xs, heqf, _, _, _⟩ :=
            enqFold_char c dc (wd.flatMap (fun pe => pe.2.synonyms)) V rest
          rw [hst] at heqf
          injection heqf with hV2 hQ2
          have hV2len : V2.length = V.length + xs.length := by
            rw [hV2]
            simp
          have hQ2len : Q2.length = rest.length + xs.length := by
            rw [hQ2]
            simp
          have hbound := visOK_length_le inv2.visOK
          have hQlen : ((c, dc) :: rest).length = rest.length + 1 := by simp
          apply ih V2 Q2 inv2
          omega

theorem bfsD_no_crash {g : Graph} {endW : String} (hclosed : ClosedB g = true) :
    ∀ (fuel : Nat) (V : VisD) (Q : QD),
      (∀ b ∈ Q, hasKey g b.1 = true) →
      bfsD g endW fuel V Q ≠ SearchResD.crash := by
  intro fuel
  induction fuel with
  | zero =>
    intro V Q _
    simp [bfsD]
  | succ fuel ih =>
    intro V Q hQ
    rcases Q with _ | ⟨⟨c, dc⟩, rest⟩
    · simp [bfsD]
    · by_cases hc : c = endW
      · simp [bfsD, hc]
      · rcases hl : lookupA g c with _ | wd
        · exfalso
          have h2 := hQ (c, dc) (List.mem_cons_self _ _)
          simp [hasKey, hl] at h2
        · simp only [bfsD, if_neg hc, hl]
          rcases hst : (wd.flatMap (fun pe => pe.2.synonyms)).foldl (enqStepD c dc) (V, rest)
            with ⟨V2, Q2⟩
          apply ih V2 Q2
          obtain ⟨xs, heqf, _, hxmem, _⟩ :=
            enqFold_char c dc (wd.flatMap (fun pe => pe.2.synonyms)) V rest
          rw [hst] at heqf
          injection heqf with hV2 hQ2
          intro b hb
          rw [hQ2] at hb
          rcases List.mem_append.mp hb with hb | hb
          · exact hQ b (List.mem_cons_of_mem _ hb)
          · obtain ⟨x, hx, rfl⟩ := List.mem_map.mp hb
            have hxs := (hxmem x hx).1
            have hedge : edge g c x := by
              unfold edge
              rw [nbrs_eq hl]
              exact hxs
            exact (ClosedB_iff_allSyns g).mp hclosed x (edge_mem_allSyns hedge)

theorem bfs_search_eq (g : Graph) (s e : String) :
    bfs_search g s e = stripRes (bfsD g e (bfsFuel g) [(s, (none, 0))] [(s, 0)]) := by
  unfold bfs_search
  have h := bfsLoop_eq_bfsD g e (bfsFuel g) [(s, (none, 0))] [(s, 0)]
  simpa [stripV, stripQ] using h

theorem bfsFuel_big (g : Graph) (s : String) :
    ([(s, 0)] : QD).length +
      ((s :: allSynsList g).toFinset.card - ([(s, (none, 0))] : VisD).length) < bfsFuel g := by
  have h1 : (s :: allSynsList g).toFinset.card ≤ (s :: allSynsList g).length :=
    List.toFinset_card_le _
  have h2 : (s :: allSynsList g).length = (allSynsList g).length + 1 := by simp
  have h4 : (allSynsList g).length =
      (g.flatMap (fun e => e.2.flatMap (fun pe => pe.2.synonyms))).length := rfl
  unfold bfsFuel
  simp only [List.length_singleton]
  omega

theorem bfs_search_spec (g : Graph) (s e : String) :
    (∃ VD, bfsD g e (bfsFuel g) [(s, (none, 0))] [(s, 0)] = SearchResD.ok VD ∧
      bfs_search g s e = SearchRes.ok (stripV VD) ∧ VisOK g s VD ∧
      (∀ en ∈ VD, ∀ k, ReachIn g s k en.1 → en.2.2 ≤ k) ∧
      (hasKey VD e = true ∨ ∀ en ∈ VD, ∀ u, edge g en.1 u → hasKey VD u = true)) ∨
    bfs_search g s e = SearchRes.keyError := by
  rcases hres : bfsD g e (bfsFuel g) [(s, (none, 0))] [(s, 0)] with VD | _ | _
  · left
    obtain ⟨h1, h2, h3⟩ := bfsD_ok (bfsFuel g) _ _ VD (bfsInv_init g s) hres
    refine ⟨VD, rfl, ?_, h1, h2, h3⟩
    rw [bfs_search_eq, hres]
    rfl
  · right
    rw [bfs_search_eq, hres]
    rfl
  · exact absurd hres (bfsD_no_fuelOut (bfsFuel g) _ _ (bfsInv_init g s) (bfsFuel_big g s))

theorem bfs_search_not_keyError {g : Graph} {s e : String} (hclosed : ClosedB g = true)
    (hs : hasKey g s = true) : bfs_search g s e ≠ SearchRes.keyError := by
  intro h
  rw [bfs_search_eq] at h
  rcases hres : bfsD g e (bfsFuel g) [(s, (none, 0))] [(s, 0)] with VD | _ | _
  · rw [hres] at h
    simp [stripRes] at h
  · refine bfsD_no_crash hclosed (bfsFuel g) _ _ ?_ hres
    intro b hb
    simp at hb
    subst hb
    exact hs
  · exact bfsD_no_fuelOut (bfsFuel g) _ _ (bfsInv_init g s) (bfsFuel_big g s) hres

/-! ### Path reconstruction and chains -/

theorem head?_append_left {α : Type} {l1 : List α} (l2 : List α) {a : α}
    (h : l1.head? = some a) : (l1 ++ l2).head? = some a := by
  cases l1 with
  | nil => simp at h
  | cons x xs => simpa using h

theorem rebuild_ok {g : Graph} {s : String} {V : VisD} (hv : VisOK g s V) :
    ∀ d w pr, (w, (pr, d)) ∈ V → ∀ (acc : List String) (fuel : Nat), d < fuel →
      ∃ pre, rebuild (stripV V) s fuel w (w :: acc) = some (pre ++ w :: acc) ∧
        (pre ++ [w]).head? = some s ∧ List.Chain' (edge g) (pre ++ [w]) ∧
        (pre ++ [w]).length = d + 1 := by
  intro d
  induction d using Nat.strong_induction_on with
  | _ d ih =>
    intro w pr hmem acc fuel hfuel
    rcases d with _ | d0
    · rcases visOK_pred hv w pr 0 hmem with ⟨hws, _, _⟩ | ⟨pc, d1, _, hd, _, _⟩
      · subst hws
        rcases fuel with _ | f
        · omega
        · refine ⟨[], ?_, ?_, ?_, ?_⟩
          · simp [rebuild]
          · rfl
          · simp
          · simp
      · omega
    · rcases visOK_pred hv w pr (d0 + 1) hmem with ⟨_, _, hd⟩ |
        ⟨pc, d1, hpr, hd, ⟨pr1, hmem1⟩, hedge⟩
      · omega
      · have hd1 : d1 = d0 := by omega
        subst hd1
        subst hpr
        have hws : ¬ (w = s) := by
          intro heq
          have hsmem : (s, (some pc, d1 + 1)) ∈ V := by
            rw [← heq]
            exact hmem
          have h2 := visOK_unique hv hsmem (visOK_mem_init hv)
          simp at h2
        rcases fuel with _ | f
        · omega
        · have hlook : lookupA (stripV V) w = some (some pc) := by
            rw [lookupA_stripV, lookupA_of_mem_nodup hmem (visOK_keys_nodup hv)]
            rfl
          obtain ⟨pre, hreb, hhead, hchain, hlen⟩ :=
            ih d1 (by omega) pc pr1 hmem1 (w :: acc) f (by omega)
          refine ⟨pre ++ [pc], ?_, ?_, ?_, ?_⟩
          · show rebuild (stripV V) s (f + 1) w (w :: acc) = _
            simp only [rebuild, if_neg hws, hlook]
            rw [hreb]
            simp
          · exact head?_append_left [w] hhead
          · rw [List.chain'_append]
            refine ⟨hchain, List.chain'_singleton _, ?_⟩
            intro x hx y hy
            rw [List.getLast?_concat] at hx
            have hx2 : pc = x := Option.some.inj hx
            have hy2 : w = y := Option.some.inj hy
            rw [← hx2, ← hy2]
            exact hedge
          · rw [List.length_append, hlen]
            simp

theorem reachIn_connects {g : Graph} {s : String} :
    ∀ n w, ReachIn g s n w → ∃ p, Connects g s w p ∧ p.length = n + 1 := by
  intro n
  induction n with
  | zero =>
    intro w hw
    rw [reachIn_zero_iff] at hw
    rw [hw]
    exact ⟨[s], ⟨rfl, rfl, List.chain'_singleton _⟩, rfl⟩
  | succ n ih =>
    intro w hw
    obtain ⟨u, hu, hedge⟩ := reachIn_succ_iff.mp hw
    obtain ⟨p, hconn, hlen⟩ := ih u hu
    obtain ⟨hh, hl, hc⟩ := hconn
    refine ⟨p ++ [w], ⟨?_, ?_, ?_⟩, ?_⟩
    · exact head?_append_left [w] hh
    · rw [List.getLast?_concat]
    · rw [List.chain'_append]
      refine ⟨hc, List.chain'_singleton _, ?_⟩
      intro x hx y hy
      rw [hl] at hx
      have hx2 : u = x := Option.some.inj hx
      have hy2 : w = y := Option.some.inj hy
      rw [← hx2, ← hy2]
      exact hedge
    · simp [hlen]

theorem connects_reachIn {g : Graph} {s : String} :
    ∀ (p : List String) (w : String), Connects g s w p → ReachIn g s (p.length - 1) w := by
  intro p
  induction p using List.reverseRecOn with
  | nil =>
    intro w hc
    obtain ⟨hh, _, _⟩ := hc
    simp at hh
  | append_singleton q a ihq =>
    intro w hc
    obtain ⟨hh, hl, hchain⟩ := hc
    rw [List.getLast?_concat] at hl
    have haw : a = w := Option.some.inj hl
    subst haw
    rcases hq : q.getLast? with _ | u
    · have hqnil : q = [] := List.getLast?_eq_none_iff.mp hq
      subst hqnil
      have has : a = s := by simpa using hh
      rw [has]
      simpa using ReachIn.zero
    · have hqne : q ≠ [] := by
        intro h2
        rw [h2] at hq
        simp at hq
      have hhq : q.head? = some s := by
        cases q with
        | nil => exact absurd rfl hqne
        | cons b q' => simpa using hh
      rw [List.chain'_append] at hchain
      obtain ⟨hcq, _, hlink⟩ := hchain
      have hedge : edge g u a := hlink u hq a rfl
      have hr := ihq u ⟨hhq, hq, hcq⟩
      have hlen : (q ++ [a]).length - 1 = (q.length - 1) + 1 := by
        have h1 : 1 ≤ q.length := by
          cases q with
          | nil => exact absurd rfl hqne
          | cons b q' => simp
        simp [List.length_append]
        omega
      rw [hlen]
      exact ReachIn.succ hr hedge

/-! ### Query-level glue -/

theorem visited_reachable {g : Graph} {s : String} {VD : VisD} (hvis : VisOK g s VD)
    {e : String} (hk : hasKey VD e = true) : Reaches g s e := by
  obtain ⟨pd, hmem⟩ := hasKey_exists hk
  obtain ⟨pr, d⟩ := pd
  exact ⟨d, visOK_reach hvis e pr d hmem⟩

theorem reaches_visited_of_closedV {g : Graph} {s : String} {VD : VisD}
    (hvis : VisOK g s VD)
    (hclosedV : ∀ en ∈ VD, ∀ u, edge g en.1 u → hasKey VD u = true) :
    ∀ n w, ReachIn g s n w → hasKey VD w = true := by
  intro n
  induction n with
  | zero =>
    intro w hw
    rw [reachIn_zero_iff] at hw
    subst hw
    exact hasKey_of_mem (visOK_mem_init hvis)
  | succ n ih =>
    intro w hw
    obtain ⟨u, hu, hedge⟩ := reachIn_succ_iff.mp hw
    obtain ⟨pd, hmem⟩ := hasKey_exists (ih u hu)
    exact hclosedV (u, pd) hmem w hedge

theorem path_result_inv {g : Graph} {s e : String} {p : List String}
    (h : path_result g s e = QueryResult.path p) :
    ∃ visited, bfs_search g s e = SearchRes.ok visited ∧ hasKey visited e = true ∧
      rebuild visited s visited.length e [e] = some p := by
  unfold path_result at h
  split at h
  · exact QueryResult.noConfusion h
  · exact QueryResult.noConfusion h
  · rename_i visited heq
    split at h
    · rename_i hk
      split at h
      · rename_i p0 hr
        have hpp : p0 = p := QueryResult.path.inj h
        subst hpp
        exact ⟨visited, heq, hk, hr⟩
      · exact QueryResult.noConfusion h
    · rename_i hk
      exact QueryResult.noConfusion h

theorem path_result_noPathFound {g : Graph} {s e : String} {visited : List (String × Option String)}
    (hb : bfs_search g s e = SearchRes.ok visited) (hk : hasKey visited e = false) :
    path_result g s e = QueryResult.noPathFound := by
  unfold path_result
  rw [hb]
  simp [hk]

theorem path_result_path {g : Graph} {s e : String} {visited : List (String × Option String)}
    {p : List String}
    (hb : bfs_search g s e = SearchRes.ok visited) (hk : hasKey visited e = true)
    (hr : rebuild visited s visited.length e [e] = some p) :
    path_result g s e = QueryResult.path p := by
  unfold path_result
  rw [hb]
  simp [hk, hr]

theorem play_eq_path_result {g : Graph} {rawS rawE : String}
    (hs : hasKey g (processWord rawS) = true) (he : hasKey g (processWord rawE) = true)
    (hne : ¬ (processWord rawS = processWord rawE)) :
    play_game_query g rawS rawE = path_result g (processWord rawS) (processWord rawE) := by
  unfold play_game_query
  simp [hs, he, hne]

theorem play_wordUnknown_start {g : Graph} {rawS rawE : String}
    (hs : hasKey g (processWord rawS) = false) :
    play_game_query g rawS rawE = QueryResult.wordUnknown (processWord rawS) := by
  unfold play_game_query
  simp [hs]

theorem play_wordUnknown_end {g : Graph} {rawS rawE : String}
    (hs : hasKey g (processWord rawS) = true) (he : hasKey g (processWord rawE) = false) :
    play_game_query g rawS rawE = QueryResult.wordUnknown (processWord rawE) := by
  unfold play_game_query
  simp [hs, he]

theorem play_sameWords {g : Graph} {rawS rawE : String}
    (hs : hasKey g (processWord rawS) = true)
    (heq : processWord rawS = processWord rawE) :
    play_game_query g rawS rawE = QueryResult.sameWords := by
  unfold play_game_query
  rw [← heq]
  simp [hs]

/-! ### Query-outcome lemmas -/

theorem bool_not_true {b : Bool} (h : ¬ b = true) : b = false := by
  rcases hb : b with _ | _
  · rfl
  · exact absurd hb h

theorem path_result_of_unreachable {g : Graph} {s e : String}
    (hclosed : ClosedB g = true) (hs : hasKey g s = true)
    (hur : ¬ Reaches g s e) :
    path_result g s e = QueryResult.noPathFound := by
  rcases bfs_search_spec g s e with ⟨VD, _, hsearch, hvis, _, _⟩ | hkey
  · have hk : hasKey (stripV VD) e = false := by
      rcases hke : hasKey VD e with _ | _
      · rw [hasKey_stripV]
        exact hke
      · exact absurd (visited_reachable hvis hke) hur
    exact path_result_noPathFound hsearch hk
  · exact absurd hkey (bfs_search_not_keyError hclosed hs)

theorem path_result_cases {g : Graph} {s e : String}
    (hclosed : ClosedB g = true) (hs : hasKey g s = true) :
    (∃ p, path_result g s e = QueryResult.path p) ∨
    path_result g s e = QueryResult.noPathFound := by
  rcases bfs_search_spec g s e with ⟨VD, _, hsearch, hvis, _, _⟩ | hkey
  · rcases hke : hasKey VD e with _ | _
    · right
      refine path_result_noPathFound hsearch ?_
      rw [hasKey_stripV]
      exact hke
    · left
      obtain ⟨pd, hmem⟩ := hasKey_exists hke
      obtain ⟨pr, d⟩ := pd
      have hd := visOK_depth_lt hvis e pr d hmem
      have hlen : (stripV VD).length = VD.length := by simp [stripV]
      obtain ⟨pre, hreb, _, _, _⟩ :=
        rebuild_ok hvis d e pr hmem [] (stripV VD).length (by omega)
      refine ⟨pre ++ [e], path_result_path hsearch ?_ ?_⟩
      · rw [hasKey_stripV]
        exact hke
      · rw [hreb]
  · exact absurd hkey (bfs_search_not_keyError hclosed hs)

theorem play_not_crash {g : Graph} {rawS rawE : String} (hclosed : ClosedB g = true) :
    play_game_query g rawS rawE ≠ QueryResult.crash := by
  by_cases hs : hasKey g (processWord rawS) = true
  · by_cases he : hasKey g (processWord rawE) = true
    · by_cases hne : processWord rawS = processWord rawE
      · rw [play_sameWords hs hne]
        intro h
        exact QueryResult.noConfusion h
      · rw [play_eq_path_result hs he hne]
        rcases @path_result_cases g (processWord rawS) (processWord rawE) hclosed hs with
          ⟨p, hp⟩ | hp <;> rw [hp] <;> intro h <;> exact QueryResult.noConfusion h
    · rw [play_wordUnknown_end hs (bool_not_true he)]
      intro h
      exact QueryResult.noConfusion h
  · rw [play_wordUnknown_start (bool_not_true hs)]
    intro h
    exact QueryResult.noConfusion h

theorem not_reaches_of_noPathFound {g : Graph} {rawS rawE : String}
    (hclosed : ClosedB g = true)
    (h : play_game_query g rawS rawE = QueryResult.noPathFound) :
    ¬ Reaches g (processWord rawS) (processWord rawE) := by
  by_cases hs : hasKey g (processWord rawS) = true
  · by_cases he : hasKey g (processWord rawE) = true
    · by_cases hne : processWord rawS = processWord rawE
      · rw [play_sameWords hs hne] at h
        exact QueryResult.noConfusion h
      · rw [play_eq_path_result hs he hne] at h
        intro hr
        obtain ⟨n, hrn⟩ := hr
        rcases bfs_search_spec g (processWord rawS) (processWord rawE) with
          ⟨VD, _, hsearch, hvis, _, hdisj⟩ | hkey
        · unfold path_result at h
          rw [hsearch] at h
          by_cases hke : hasKey (stripV VD) (processWord rawE) = true
          · simp only [hke, if_true] at h
            rcases hreb : rebuild (stripV VD) (processWord rawS) (stripV VD).length
                (processWord rawE) [processWord rawE] with _ | p0 <;>
              rw [hreb] at h <;> exact QueryResult.noConfusion h
          · have hkD : hasKey VD (processWord rawE) = false := by
              rw [← hasKey_stripV]
              exact bool_not_true hke
            rcases hdisj with hd1 | hd2
            · rw [hkD] at hd1
              exact Bool.false_eq_true.mp hd1
            · have h2 := reaches_visited_of_closedV hvis hd2 n _ hrn
              rw [hkD] at h2
              exact Bool.false_eq_true.mp h2
        · exact absurd hkey (bfs_search_not_keyError hclosed hs)
    · rw [play_wordUnknown_end hs (bool_not_true he)] at h
      exact QueryResult.noConfusion h
  · rw [play_wordUnknown_start (bool_not_true hs)] at h
    exact QueryResult.noConfusion h

theorem play_path_props {g : Graph} {rawS rawE : String} {p : List String}
    (hp : play_game_query g rawS rawE = QueryResult.path p) :
    p.head? = some (processWord rawS) ∧ p.getLast? = some (processWord rawE) ∧
    List.Chain' (edge g) p ∧
    ∀ q, Connects g (processWord rawS) (processWord rawE) q → p.length ≤ q.length := by
  by_cases hs : hasKey g (processWord rawS) = true
  case neg =>
    rw [play_wordUnknown_start (bool_not_true hs)] at hp
    exact QueryResult.noConfusion hp
  by_cases he : hasKey g (processWord rawE) = true
  case neg =>
    rw [play_wordUnknown_end hs (bool_not_true he)] at hp
    exact QueryResult.noConfusion hp
  by_cases hne : processWord rawS = processWord rawE
  case pos =>
    rw [play_sameWords hs hne] at hp
    exact QueryResult.noConfusion hp
  rw [play_eq_path_result hs he hne] at hp
  obtain ⟨visited, hsearch, hk, hreb⟩ := path_result_inv hp
  rcases bfs_search_spec g (processWord rawS) (processWord rawE) with
    ⟨VD, _, hsearch2, hvis, hmin, _⟩ | hkey
  · rw [hsearch] at hsearch2
    have hvv : visited = stripV VD := SearchRes.ok.inj hsearch2
    subst hvv
    have hkD : hasKey VD (processWord rawE) = true := by
      rw [← hasKey_stripV]
      exact hk
    obtain ⟨pd, hmem⟩ := hasKey_exists hkD
    obtain ⟨pr, d⟩ := pd
    have hd := visOK_depth_lt hvis _ pr d hmem
    have hlen : (stripV VD).length = VD.length := by simp [stripV]
    obtain ⟨pre, hreb2, hhead, hchain, hlen2⟩ :=
      rebuild_ok hvis d (processWord rawE) pr hmem [] (stripV VD).length (by omega)
    rw [hreb] at hreb2
    have hpp : p = pre ++ [processWord rawE] := by
      have h2 := Option.some.inj hreb2
      simpa using h2
    subst hpp
    refine ⟨hhead, ?_, hchain, ?_⟩
    · rw [List.getLast?_concat]
    · intro q hq
      have hrq := connects_reachIn q _ hq
      have hdq : d ≤ q.length - 1 := hmin (processWord rawE, (pr, d)) hmem (q.length - 1) hrq
      have hq1 : 1 ≤ q.length := by
        obtain ⟨hqh, _, _⟩ := hq
        cases q with
        | nil => simp at hqh
        | cons b q' => simp
      omega
  · rw [hkey] at hsearch
    exact SearchRes.noConfusion hsearch

/-! ### Case folding -/

theorem lowerChar_toNat_shift {c : Char} (h1 : 65 ≤ c.toNat) (h2 : c.toNat ≤ 90) :
    (Char.ofNat (c.toNat + 32)).toNat = c.toNat + 32 := by
  generalize hn : c.toNat = n at h1 h2
  interval_cases n <;> decide

theorem lowerChar_not_upper (c : Char) :
    ¬ (65 ≤ (lowerChar c).toNat ∧ (lowerChar c).toNat ≤ 90) := by
  unfold lowerChar
  by_cases h : 65 ≤ c.toNat ∧ c.toNat ≤ 90
  · rw [if_pos h]
    rw [lowerChar_toNat_shift h.1 h.2]
    omega
  · rw [if_neg h]
    exact h

theorem processWord_no_upper (s : String) :
    ∀ c ∈ (processWord s).data, ¬ (65 ≤ c.toNat ∧ c.toNat ≤ 90) := by
  intro c hc
  unfold processWord strLower at hc
  obtain ⟨c0, _, heq⟩ := List.mem_map.mp hc
  rw [← heq]
  exact lowerChar_not_upper c0

theorem processWord_ne_of_upper {k : String}
    (hk : ∃ c ∈ k.data, 65 ≤ c.toNat ∧ c.toNat ≤ 90) (s : String) :
    ¬ (processWord s = k) := by
  intro heq
  obtain ⟨c, hc, hcu⟩ := hk
  rw [← heq] at hc
  exact processWord_no_upper s c hc hcu

/-! ## Claims

Each claim of the specification is settled by one theorem below; claims
with hypotheses come with a closed witness instantiating them, and claims
the code contradicts come with a closed counterexample next to the amended
statement actually proved. -/

/-- C1: For every lexical graph and every pair of query words whose
processed forms are both keys of the graph and differ, if the query
returns a path then that path begins with the processed start word, ends
with the processed end word, every consecutive pair is related by the
synonym-edge predicate, and no chain of strictly fewer hops connects the
two words through the synonym relation. -/
theorem c1_bfs_shortest_path (g : Graph) (rawS rawE : String) (p : List String)
    (hs : hasKey g (processWord rawS) = true)
    (he : hasKey g (processWord rawE) = true)
    (hne : processWord rawS ≠ processWord rawE)
    (hp : play_game_query g rawS rawE = QueryResult.path p) :
    p.head? = some (processWord rawS) ∧ p.getLast? = some (processWord rawE) ∧
    List.Chain' (edge g) p ∧
    ∀ q, Connects g (processWord rawS) (processWord rawE) q → p.length ≤ q.length :=
  play_path_props hp

theorem c1_witness :
    hasKey (make_word_info demoFiles) (processWord "hot") = true ∧
    hasKey (make_word_info demoFiles) (processWord "cool") = true ∧
    processWord "hot" ≠ processWord "cool" ∧
    play_game_query (make_word_info demoFiles) "hot" "cool" =
      QueryResult.path ["hot", "warm", "cool"] ∧
    (["hot", "warm", "cool"].head? = some (processWord "hot") ∧
     ["hot", "warm", "cool"].getLast? = some (processWord "cool") ∧
     List.Chain' (edge (make_word_info demoFiles)) ["hot", "warm", "cool"] ∧
     ∀ q, Connects (make_word_info demoFiles) (processWord "hot") (processWord "cool") q →
       (["hot", "warm", "cool"] : List String).length ≤ q.length) :=
  ⟨by decide, by decide, by decide, by decide,
   c1_bfs_shortest_path (make_word_info demoFiles) "hot" "cool" ["hot", "warm", "cool"]
     (by decide) (by decide) (by decide) (by decide)⟩

/-- C2: No word ever appears in its own synonym set: this holds of every
graph built from parsed synset records, and is preserved when two partial
graphs that satisfy it are merged. -/
theorem c2_self_exclusion :
    (∀ files, SelfExclB (make_word_info files) = true) ∧
    (∀ g1 g2 : Graph, SelfExclB g1 = true → SelfExclB g2 = true →
      SelfExclB (combine_dicionaries g1 g2) = true) :=
  ⟨fun files => (good_make_word_info files).2.1,
   fun _ _ h1 h2 => SelfExclB_combine h1 h2⟩

theorem c2_witness :
    SelfExclB (make_word_info demoFiles) = true ∧
    SelfExclB (combine_dicionaries demoA demoB) = true :=
  ⟨c2_self_exclusion.1 demoFiles,
   c2_self_exclusion.2 demoA demoB (by decide) (by decide)⟩

/-- C3: Merging partial graphs is order-independent in content: for
well-formed partial graphs A and B (distinct keys at both dictionary
levels, as Python dicts have by construction), merging A then B into an
empty target and merging B then A yield graphs with the same words, the
same parts of speech per word, and the same membership in every synonym,
antonym and definition set. -/
theorem c3_merge_order_independent (A B : Graph)
    (hA : WFB A = true) (hB : WFB B = true) :
    GraphEquiv (combine_dicionaries (combine_dicionaries [] A) B)
               (combine_dicionaries (combine_dicionaries [] B) A) := by
  have hA1 : ∀ w p, lookup2 (combine_dicionaries [] A) w p = lookup2 A w p := by
    intro w p
    rw [lookup2_combine hA]
    rfl
  have hB1 : ∀ w p, lookup2 (combine_dicionaries [] B) w p = lookup2 B w p := by
    intro w p
    rw [lookup2_combine hB]
    rfl
  have h1 : ∀ w p, lookup2 (combine_dicionaries (combine_dicionaries [] A) B) w p =
      combOpt combineData (lookup2 A w p) (lookup2 B w p) := by
    intro w p
    rw [lookup2_combine hB, hA1]
  have h2 : ∀ w p, lookup2 (combine_dicionaries (combine_dicionaries [] B) A) w p =
      combOpt combineData (lookup2 B w p) (lookup2 A w p) := by
    intro w p
    rw [lookup2_combine hA, hB1]
  refine ⟨?_, ?_, ?_, ?_, ?_⟩
  · intro w
    rw [hasKey_combine, hasKey_combine, hasKey_combine, hasKey_combine]
    have hnil : hasKey ([] : Graph) w = false := rfl
    rw [hnil]
    rcases hw1 : hasKey A w <;> rcases hw2 : hasKey B w <;> rfl
  · intro w p
    rw [h1, h2]
    rcases lookup2 A w p with _ | dA <;> rcases lookup2 B w p with _ | dB <;> rfl
  · intro w p x
    rw [h1, h2,
        combOpt_field_mem (fun d => d.synonyms) (fun a b => rfl) x (lookup2 A w p)
          (lookup2 B w p),
        combOpt_field_mem (fun d => d.synonyms) (fun a b => rfl) x (lookup2 B w p)
          (lookup2 A w p)]
    exact or_comm
  · intro w p x
    rw [h1, h2,
        combOpt_field_mem (fun d => d.antonyms) (fun a b => rfl) x (lookup2 A w p)
          (lookup2 B w p),
        combOpt_field_mem (fun d => d.antonyms) (fun a b => rfl) x (lookup2 B w p)
          (lookup2 A w p)]
    exact or_comm
  · intro w p x
    rw [h1, h2,
        combOpt_field_mem (fun d => d.definition) (fun a b => rfl) x (lookup2 A w p)
          (lookup2 B w p),
        combOpt_field_mem (fun d => d.definition) (fun a b => rfl) x (lookup2 B w p)
          (lookup2 A w p)]
    exact or_comm

theorem c3_witness :
    WFB demoA = true ∧ WFB demoB = true ∧
    GraphEquiv (combine_dicionaries (combine_dicionaries [] demoA) demoB)
               (combine_dicionaries (combine_dicionaries [] demoB) demoA) :=
  ⟨by decide, by decide, c3_merge_order_independent demoA demoB (by decide) (by decide)⟩

/-- C4: An unreadable or unparsable category source yields the empty
partial graph, produces a log line, and leaves the rest of the build
unchanged: the merged result over any surrounding sources is the same as
if the failing source were absent. -/
theorem c4_unreadable_source (xml_file : String)
    (pre post : List (String × Option (List RawSynset))) :
    build_word_info xml_file none = [] ∧
    build_logs xml_file none ≠ [] ∧
    make_word_info (pre ++ (xml_file, none) :: post) = make_word_info (pre ++ post) := by
  refine ⟨rfl, by simp [build_logs], ?_⟩
  unfold make_word_info
  rw [List.foldl_append, List.foldl_cons, List.foldl_append]
  rfl

/-- C5: Every query yields one of the three pairwise distinct outcomes.
An absent start word yields WordUnknown for it; a present start with an
absent end yields WordUnknown for the end; and when both words are
present in a closed graph but the end is unreachable through the synonym
relation, the result is NoPathFound — and the three outcome forms are
mutually distinct constructors. -/
theorem c5_query_outcomes (g : Graph) (rawS rawE : String) :
    (hasKey g (processWord rawS) = false →
      play_game_query g rawS rawE = QueryResult.wordUnknown (processWord rawS)) ∧
    (hasKey g (processWord rawS) = true → hasKey g (processWord rawE) = false →
      play_game_query g rawS rawE = QueryResult.wordUnknown (processWord rawE)) ∧
    (ClosedB g = true → hasKey g (processWord rawS) = true →
      hasKey g (processWord rawE) = true →
      ¬ Reaches g (processWord rawS) (processWord rawE) →
      play_game_query g rawS rawE = QueryResult.noPathFound) ∧
    (∀ w p, QueryResult.wordUnknown w ≠ QueryResult.noPathFound ∧
      QueryResult.wordUnknown w ≠ QueryResult.path p ∧
      QueryResult.noPathFound ≠ QueryResult.path p) := by
  refine ⟨?_, ?_, ?_, ?_⟩
  · intro hs
    exact play_wordUnknown_start hs
  · intro hs he
    exact play_wordUnknown_end hs he
  · intro hcl hs he hur
    have hne : ¬ (processWord rawS = processWord rawE) := by
      intro heq
      apply hur
      rw [heq]
      exact ⟨0, ReachIn.zero⟩
    rw [play_eq_path_result hs he hne]
    exact path_result_of_unreachable hcl hs hur
  · intro w p
    exact ⟨fun h => QueryResult.noConfusion h, fun h => QueryResult.noConfusion h,
           fun h => QueryResult.noConfusion h⟩

theorem c5_witness :
    play_game_query (make_word_info discFiles) "a" "c" = QueryResult.noPathFound ∧
    play_game_query (make_word_info discFiles) "a" "glacial" =
      QueryResult.wordUnknown (processWord "glacial") := by
  constructor
  · exact (c5_query_outcomes (make_word_info discFiles) "a" "c").2.2.1
      (by decide) (by decide) (by decide)
      (not_reaches_of_noPathFound (by decide) (by decide))
  · exact (c5_query_outcomes (make_word_info discFiles) "a" "glacial").2.1
      (by decide) (by decide)

/-- C6 counterexample: with both arguments equal to a word absent from the
graph the outcome is WordUnknown, not a same-words rejection, and with an
empty first argument the outcome is WordUnknown for the empty string — so
neither the equal-words case nor the empty-argument case is rejected
before the membership checks, and no InvalidQuery outcome exists. -/
theorem c6_counterexample :
    play_game_query (make_word_info demoFiles) "zzz" "zzz" =
      QueryResult.wordUnknown "zzz" ∧
    play_game_query (make_word_info demoFiles) "" "hot" =
      QueryResult.wordUnknown "" ∧
    QueryResult.wordUnknown "zzz" ≠ QueryResult.sameWords := by
  refine ⟨by decide, by decide, by decide⟩

/-- C6 amended: the membership checks run first. When the processed start
word is a key and the two processed words are equal, the query is rejected
with the distinct same-words outcome before any search; an empty argument
instead falls to the membership check and yields WordUnknown for the empty
string, because a built graph never has the empty string as a key. -/
theorem c6_same_words_rejected (g : Graph) (rawS rawE : String)
    (hs : hasKey g (processWord rawS) = true)
    (heq : processWord rawS = processWord rawE) :
    play_game_query g rawS rawE = QueryResult.sameWords ∧
    ∀ files rawE2, play_game_query (make_word_info files) "" rawE2 =
      QueryResult.wordUnknown "" := by
  refine ⟨play_sameWords hs heq, ?_⟩
  intro files rawE2
  have hne : hasKey (make_word_info files) (processWord "") = false :=
    hasKey_empty_string (good_make_word_info files).2.2.2
  exact play_wordUnknown_start hne

theorem c6_witness :
    play_game_query (make_word_info demoFiles) "hot" " HOT " = QueryResult.sameWords ∧
    play_game_query (make_word_info demoFiles) "" "hot" = QueryResult.wordUnknown "" :=
  ⟨(c6_same_words_rejected (make_word_info demoFiles) "hot" " HOT "
      (by decide) (by decide)).1,
   (c6_same_words_rejected (make_word_info demoFiles) "hot" "hot"
      (by decide) (by decide)).2 demoFiles "hot"⟩

/-- C7: Serialising any built-and-merged lexical graph to the snapshot
format and deserialising it back succeeds and yields a graph with the same
word -> category -> field contents under order-insensitive equality. -/
theorem c7_snapshot_roundtrip (files : List (String × Option (List RawSynset))) :
    ∃ g2, json_load (make_word_info_json files) = some g2 ∧
      GraphEquiv g2 (make_word_info files) := by
  refine ⟨make_word_info files, ?_, GraphEquiv_refl _⟩
  unfold make_word_info_json
  rw [convert_sets_to_lists_id, json_load_json_dump]

/-- C8 counterexample: the innermost snapshot field keys are `synonyms`,
`antonyms` and `definition` — the claimed `definitions` key does not
occur, so the claimed shape already fails on a one-file build. -/
theorem c8_counterexample :
    snapshotShapeB ["synonyms", "antonyms", "definitions"]
      (make_word_info_json demoFiles) = false := by decide

/-- C8 amended: for every input the snapshot is keyed by word, then by
category, then by exactly the field names `synonyms`, `antonyms` and
`definition` (singular), each field an array of strings, and the top-level
keys are exactly the words of the merged graph. -/
theorem c8_snapshot_shape (files : List (String × Option (List RawSynset))) :
    snapshotShapeB ["synonyms", "antonyms", "definition"]
      (make_word_info_json files) = true ∧
    jsonWords (make_word_info_json files) = keysOf (make_word_info files) := by
  constructor
  · unfold make_word_info_json
    rw [convert_sets_to_lists_id]
    exact snapshotShapeB_json_dump _
  · unfold make_word_info_json
    rw [convert_sets_to_lists_id]
    exact jsonWords_json_dump _

/-- C9: Closure invariant: every graph produced by building and merging is
closed (every member of every synonym set is itself a key), and on any
closed graph a query can never crash — in particular the BFS neighbour
lookup never fails on a missing key. -/
theorem c9_closure_no_crash :
    (∀ files, ClosedB (make_word_info files) = true) ∧
    (∀ (g : Graph) (rawS rawE : String), ClosedB g = true →
      play_game_query g rawS rawE ≠ QueryResult.crash) :=
  ⟨fun files => (good_make_word_info files).2.2.1,
   fun _ _ _ hc => play_not_crash hc⟩

theorem c9_witness :
    ClosedB (make_word_info demoFiles) = true ∧
    play_game_query (make_word_info demoFiles) "hot" "zzz" ≠ QueryResult.crash :=
  ⟨c9_closure_no_crash.1 demoFiles,
   c9_closure_no_crash.2 (make_word_info demoFiles) "hot" "zzz" (by decide)⟩

/-- C10 counterexample: graph keys are stored case-sensitively, so a graph
can hold both "Hot" and "hot"; querying "Hot" lowercases it to the key
"hot" and returns a path instead of the claimed word-unknown outcome. -/
theorem c10_counterexample :
    hasKey (make_word_info upperFiles) "Hot" = true ∧
    play_game_query (make_word_info upperFiles) "Hot" "warm" =
      QueryResult.path ["hot", "warm"] :=
  ⟨by decide, by decide⟩

/-- C10 amended: both query words are stripped and lowercased before any
lookup, and a processed word never contains an ASCII uppercase letter, so
a key containing one is never the word looked up and never appears as the
start or end of a returned path; but a query naming such a word yields
WordUnknown only when its processed form is not itself a key — otherwise
it resolves to that different, lower-case key. -/
theorem c10_case_folding (g : Graph) (rawS rawE k : String)
    (hk : ∃ c ∈ k.data, 65 ≤ c.toNat ∧ c.toNat ≤ 90) :
    processWord rawS ≠ k ∧ processWord rawE ≠ k ∧
    (hasKey g (processWord rawS) = false →
      play_game_query g rawS rawE = QueryResult.wordUnknown (processWord rawS)) ∧
    (∀ p, play_game_query g rawS rawE = QueryResult.path p →
      p.head? ≠ some k ∧ p.getLast? ≠ some k) := by
  refine ⟨processWord_ne_of_upper hk rawS, processWord_ne_of_upper hk rawE, ?_, ?_⟩
  · intro hs
    exact play_wordUnknown_start hs
  · intro p hp
    obtain ⟨hh, hl, _, _⟩ := play_path_props hp
    constructor
    · rw [hh]
      intro h2
      exact processWord_ne_of_upper hk rawS (Option.some.inj h2)
    · rw [hl]
      intro h2
      exact processWord_ne_of_upper hk rawE (Option.some.inj h2)

theorem c10_witness :
    (∃ c ∈ "Hot".data, 65 ≤ c.toNat ∧ c.toNat ≤ 90) ∧
    processWord "Hot" ≠ "Hot" ∧
    (["hot", "warm"] : List String).head? ≠ some "Hot" := by
  refine ⟨by decide, ?_, ?_⟩
  · exact (c10_case_folding (make_word_info upperFiles) "Hot" "warm" "Hot"
      (by decide)).1
  · exact ((c10_case_folding (make_word_info upperFiles) "Hot" "warm" "Hot"
      (by decide)).2.2.2 ["hot", "warm"] (by decide)).1
